import Mathlib

/-!
Shallow embedding of the routing engine of the DisasterNetworkSimulator
repository (the `NetworkGraph` class: graph construction from nodes and
connections, Dijkstra-style shortest path, all-paths wrapper, and the
BFS broadcast order), together with theorems about it.

JavaScript `Map` objects are modelled as association lists with the
`Map.set` update-in-place-or-append semantics, `Set` objects as lists with
add-if-absent semantics, and JavaScript numbers that may legitimately hold
`Infinity` (the tentative-distance table) as `WithTop ℚ`.  The JavaScript
falsiness of `0`, `""`, `null` and `undefined` in `x || y` expressions is
modelled explicitly by the `jsOr*` helpers, since the source uses `||`
defaults on values of these types.
-/

/-- JS `Map.get`: value at the first (unique) matching key, or `undefined`. -/
def mapGet {α : Type} : List (String × α) → String → Option α
  | [], _ => none
  | (k', v') :: rest, k => if k' = k then some v' else mapGet rest k

/-- JS `Map.set`: replace the value in place if the key is present
(keeping its position), otherwise append the binding at the end. -/
def mapSet {α : Type} : List (String × α) → String → α → List (String × α)
  | [], k, v => [(k, v)]
  | (k', v') :: rest, k, v =>
      if k' = k then (k, v) :: rest else (k', v') :: mapSet rest k v

/-- JS `Map.has`. -/
def mapMem {α : Type} (m : List (String × α)) (k : String) : Bool :=
  (mapGet m k).isSome

/-- JS `Set.add`: no-op if the element is present, else append. -/
def setAdd (l : List String) (x : String) : List String :=
  if x ∈ l then l else l ++ [x]

/-- The fields of a `NetworkNode` record (src/shared types): the routing
engine reads only `nodeId`; the remaining fields are carried for display. -/
structure NetworkNode where
  id : Int
  nodeId : String
  name : String
  latitude : ℚ
  longitude : ℚ
  isOnline : Bool
  signalStrength : ℚ
deriving DecidableEq, Repr

/-- A `NetworkConnection` record. -/
structure NetworkConnection where
  id : Int
  fromNodeId : String
  toNodeId : String
  distance : ℚ
  latency : ℚ
  isActive : Bool
deriving DecidableEq, Repr

/-- A `RoutingResult` record.  `totalDistance` is a JS number that the
source can in principle set to `Infinity` (`distances.get(end) || 0` keeps
`Infinity`, which is truthy), hence `WithTop ℚ`. -/
structure RoutingResult where
  path : List String
  totalDistance : WithTop ℚ
  hops : Nat
deriving DecidableEq, Repr

/-- The state of a `NetworkGraph` object after its constructor ran:
the `nodes` map and the `adjacencyList` map. -/
structure NetworkGraph where
  nodes : List (String × NetworkNode)
  adjacencyList : List (String × List (String × ℚ))
deriving DecidableEq, Repr

/-- `calculateEdgeWeight`: `connection.distance * 10 + connection.latency / 10`. -/
def calculateEdgeWeight (connection : NetworkConnection) : ℚ :=
  connection.distance * 10 + connection.latency / 10

/-- First loop of the constructor: for each node, `nodes.set(nodeId, node)`
and `adjacencyList.set(nodeId, new Map())`. -/
def initGraph (nodes : List NetworkNode) : NetworkGraph :=
  nodes.foldl
    (fun g node =>
      ⟨mapSet g.nodes node.nodeId node, mapSet g.adjacencyList node.nodeId []⟩)
    ⟨[], []⟩

/-- `this.adjacencyList.get(a)?.set(b, w)`: if `a` has no adjacency entry
the optional chaining makes the whole statement a no-op. -/
def adjSetEdge (adj : List (String × List (String × ℚ))) (a b : String) (w : ℚ) :
    List (String × List (String × ℚ)) :=
  match mapGet adj a with
  | none => adj
  | some nbrs => mapSet adj a (mapSet nbrs b w)

/-- Body of the constructor's connection loop. -/
def connStep (adj : List (String × List (String × ℚ))) (conn : NetworkConnection) :
    List (String × List (String × ℚ)) :=
  if conn.isActive then
    adjSetEdge (adjSetEdge adj conn.fromNodeId conn.toNodeId (calculateEdgeWeight conn))
      conn.toNodeId conn.fromNodeId (calculateEdgeWeight conn)
  else adj

/-- The `NetworkGraph` constructor. -/
def buildGraph (nodes : List NetworkNode) (connections : List NetworkConnection) :
    NetworkGraph :=
  let g0 := initGraph nodes
  ⟨g0.nodes, connections.foldl connStep g0.adjacencyList⟩

/-- Keys of the neighbor map of `nodeId` in a raw adjacency structure,
or `[]` if the key is absent. -/
def adjNeighbors (adj : List (String × List (String × ℚ))) (nodeId : String) :
    List String :=
  match mapGet adj nodeId with
  | some neighbors => neighbors.map Prod.fst
  | none => []

/-- `getConnectedNodes`: keys of the neighbor map, or `[]` if absent. -/
def getConnectedNodes (g : NetworkGraph) (nodeId : String) : List String :=
  adjNeighbors g.adjacencyList nodeId

/-- The vertices of the graph: the keys of the `nodes` map. -/
def vertexList (g : NetworkGraph) : List String :=
  g.nodes.map Prod.fst

/-- The weight recorded in a raw adjacency structure for the directed
entry `a → b`, if any (verification-side accessor). -/
def adjWeight (adj : List (String × List (String × ℚ))) (a b : String) :
    Option ℚ :=
  (mapGet adj a).bind (fun nbrs => mapGet nbrs b)

/-- The weight recorded in the adjacency structure of a graph for the
directed entry `a → b`, if any (verification-side accessor). -/
def edgeWeight (g : NetworkGraph) (a b : String) : Option ℚ :=
  adjWeight g.adjacencyList a b

/-- The connection `c` joins the ordered pair `(a, b)` in one of the two
orientations in which the constructor would write the entry `a → b`. -/
def joins (c : NetworkConnection) (a b : String) : Prop :=
  (c.fromNodeId = a ∧ c.toNodeId = b) ∨ (c.toNodeId = a ∧ c.fromNodeId = b)

instance (c : NetworkConnection) (a b : String) : Decidable (joins c a b) := by
  unfold joins
  infer_instance

/-- JS `x || Infinity` on a `Map.get` of a distance: `undefined` becomes
`Infinity`, the falsy number `0` becomes `Infinity`, anything else is kept. -/
def jsOrTop (x : Option (WithTop ℚ)) : WithTop ℚ :=
  match x with
  | none => ⊤
  | some v => if v = 0 then ⊤ else v

/-- JS `x || 0` on a `Map.get` of a distance: `undefined` becomes `0`,
the falsy `0` stays `0`, `Infinity` is truthy and is kept. -/
def jsOrZero (x : Option (WithTop ℚ)) : WithTop ℚ :=
  match x with
  | none => 0
  | some v => if v = 0 then 0 else v

/-- JS `x || null` on a `Map.get` of a predecessor (`string | null`):
`undefined` and `null` become `null`, the falsy `""` becomes `null`. -/
def jsOrNull (x : Option (Option String)) : Option String :=
  match x with
  | none => none
  | some none => none
  | some (some s) => if s = "" then none else some s

/-- The selection loop: scan `unvisited`, tracking `current` (initially
`null`) and `minDistance` (initially `Infinity`); note the source reads
each candidate as `distances.get(nodeId) || Infinity`. -/
def selectMin (distances : List (String × WithTop ℚ)) (unvisited : List String) :
    Option String × WithTop ℚ :=
  unvisited.foldl
    (fun acc nodeId =>
      let distance := jsOrTop (mapGet distances nodeId)
      if distance < acc.2 then (some nodeId, distance) else acc)
    (none, ⊤)

/-- JS falsiness of the selected `current : string | null`
(`!current` is true for `null` and for the empty string). -/
def jsFalsyStr (x : Option String) : Bool :=
  match x with
  | none => true
  | some s => s = ""

/-- The relaxation pass over the neighbor map of `current`. -/
def relaxNeighbors (current : String) (unvisited : List String)
    (neighbors : List (String × ℚ))
    (st : List (String × WithTop ℚ) × List (String × Option String)) :
    List (String × WithTop ℚ) × List (String × Option String) :=
  neighbors.foldl
    (fun st p =>
      if p.1 ∈ unvisited then
        let newDistance := jsOrZero (mapGet st.1 current) + (p.2 : WithTop ℚ)
        if newDistance < jsOrTop (mapGet st.1 p.1) then
          (mapSet st.1 p.1 newDistance, mapSet st.2 p.1 (some current))
        else st
      else st)
    st

/-- One `while (unvisited.size > 0)` loop of `findShortestPath`, with a
fuel argument: each non-breaking iteration removes the selected vertex
from `unvisited`, so `unvisited.length` units of fuel are enough. -/
def dijkstraLoop (g : NetworkGraph) (endId : String) :
    Nat →
    List (String × WithTop ℚ) × List (String × Option String) × List String →
    List (String × WithTop ℚ) × List (String × Option String) × List String
  | 0, st => st
  | fuel + 1, (distances, previous, unvisited) =>
    if unvisited.isEmpty then (distances, previous, unvisited)
    else
      let sel := selectMin distances unvisited
      if jsFalsyStr sel.1 ∨ sel.2 = ⊤ then (distances, previous, unvisited)
      else
        let current := sel.1.getD ""
        let unvisited' := unvisited.erase current
        if current = endId then (distances, previous, unvisited')
        else
          match mapGet g.adjacencyList current with
          | none => dijkstraLoop g endId fuel (distances, previous, unvisited')
          | some neighbors =>
            let st' := relaxNeighbors current unvisited' neighbors (distances, previous)
            dijkstraLoop g endId fuel (st'.1, st'.2, unvisited')

/-- `distances.set(nodeId, nodeId === start ? 0 : Infinity)` for each node key. -/
def initDistances (keys : List String) (start : String) :
    List (String × WithTop ℚ) :=
  keys.foldl (fun m nodeId => mapSet m nodeId (if nodeId = start then 0 else ⊤)) []

/-- `previous.set(nodeId, null)` for each node key. -/
def initPrevious (keys : List String) : List (String × Option String) :=
  keys.foldl (fun m nodeId => mapSet m nodeId none) []

/-- `unvisited.add(nodeId)` for each node key. -/
def initUnvisited (keys : List String) : List String :=
  keys.foldl (fun l nodeId => setAdd l nodeId) []

/-- The path-reconstruction loop:
`while (current !== null) { path.unshift(current); current = previous.get(current) || null }`,
with fuel (one more than the number of nodes covers any predecessor chain
the search can build). -/
def reconLoop (previous : List (String × Option String)) :
    Nat → Option String → List String → List String
  | 0, _, path => path
  | _ + 1, none, path => path
  | fuel + 1, some c, path => reconLoop previous fuel (jsOrNull (mapGet previous c)) (c :: path)

/-- `findShortestPath`. -/
def findShortestPath (g : NetworkGraph) (start endId : String) :
    Option RoutingResult :=
  if ¬ (mapMem g.nodes start = true ∧ mapMem g.nodes endId = true) then none
  else if start = endId then some ⟨[start], 0, 0⟩
  else
    let keys := vertexList g
    let distances := initDistances keys start
    let previous := initPrevious keys
    let unvisited := initUnvisited keys
    let st := dijkstraLoop g endId unvisited.length (distances, previous, unvisited)
    let path := reconLoop st.2.1 (g.nodes.length + 1) (some endId) []
    if path.head? = some start then
      some ⟨path, jsOrZero (mapGet st.1 endId), path.length - 1⟩
    else none

/-- `findAllPaths`. -/
def findAllPaths (g : NetworkGraph) (start : String) :
    List (String × RoutingResult) :=
  (vertexList g).foldl
    (fun results nodeId =>
      if nodeId ≠ start then
        match findShortestPath g start nodeId with
        | some result => mapSet results nodeId result
        | none => results
      else results)
    []

/-- All node ids that occur as a neighbor key somewhere in the adjacency
structure (used only to bound the BFS frontier for termination). -/
def allNeighborIds (g : NetworkGraph) : List String :=
  g.adjacencyList.flatMap (fun p => p.2.map Prod.fst)

/-- Termination measure for the BFS loop: number of not-yet-visited
candidate ids, paired lexicographically with the queue length. -/
def bfsCard (g : NetworkGraph) (visited queue : List String) : Nat :=
  ((queue ++ g.adjacencyList.map Prod.fst ++ allNeighborIds g).toFinset \
    visited.toFinset).card

/-- The `while (queue.length > 0)` loop of `broadcastPath`. -/
def bfsAux (g : NetworkGraph) :
    List String → List String → List String → List String
  | visited, [], broadcastOrder => broadcastOrder
  | visited, current :: rest, broadcastOrder =>
    if current ∈ visited then bfsAux g visited rest broadcastOrder
    else
      bfsAux g (current :: visited)
        (rest ++ (getConnectedNodes g current).filter
          (fun n => decide (¬ n ∈ current :: visited)))
        (broadcastOrder ++ [current])
  termination_by visited queue _ => (bfsCard g visited queue, queue.length)
  decreasing_by
  · have hsub : bfsCard g visited rest ≤ bfsCard g visited (current :: rest) := by
      apply Finset.card_le_card
      intro x hx
      rw [Finset.mem_sdiff] at hx ⊢
      refine ⟨?_, hx.2⟩
      have hx1 := hx.1
      rw [List.mem_toFinset] at hx1 ⊢
      simp only [List.mem_append, List.mem_cons] at hx1 ⊢
      tauto
    rcases Nat.lt_or_ge (bfsCard g visited rest) (bfsCard g visited (current :: rest))
      with h | h
    · exact Prod.Lex.left _ _ h
    · have heq : bfsCard g visited rest = bfsCard g visited (current :: rest) :=
        Nat.le_antisymm hsub h
      rw [heq]
      exact Prod.Lex.right _ (Nat.lt_succ_self _)
  · apply Prod.Lex.left
    apply Finset.card_lt_card
    have key : ∀ (l : List (String × List (String × ℚ))) (c : String)
        (nbrs : List (String × ℚ)), mapGet l c = some nbrs →
        ∀ y ∈ nbrs.map Prod.fst, y ∈ l.flatMap (fun p => p.2.map Prod.fst) := by
      intro l
      induction l with
      | nil =>
        intro c nbrs h
        simp [mapGet] at h
      | cons p ps ih =>
        intro c nbrs h y hy
        rw [mapGet] at h
        by_cases hp : p.1 = c
        · rw [if_pos hp] at h
          simp only [Option.some.injEq] at h
          subst h
          simp only [List.flatMap_cons, List.mem_append]
          exact Or.inl hy
        · rw [if_neg hp] at h
          simp only [List.flatMap_cons, List.mem_append]
          exact Or.inr (ih c nbrs h y hy)
    have hnb : ∀ (p : String → Bool),
        ∀ y ∈ (getConnectedNodes g current).filter p, y ∈ allNeighborIds g := by
      intro p y hy
      have hy' := (List.mem_filter.mp hy).1
      revert hy'
      unfold getConnectedNodes adjNeighbors allNeighborIds
      cases hadj : mapGet g.adjacencyList current with
      | none =>
        intro hy'
        simp at hy'
      | some nbrs =>
        intro hy'
        exact key g.adjacencyList current nbrs hadj y hy'
    have hsub : ((rest ++ (getConnectedNodes g current).filter
          (fun n => decide (¬ n ∈ current :: visited)) ++
          g.adjacencyList.map Prod.fst ++ allNeighborIds g).toFinset \
          (current :: visited).toFinset) ⊆
        ((current :: rest ++ g.adjacencyList.map Prod.fst ++
          allNeighborIds g).toFinset \ visited.toFinset) := by
      intro x hx
      simp only [Finset.mem_sdiff, List.mem_toFinset] at hx ⊢
      obtain ⟨hx1, hx2⟩ := hx
      constructor
      · rw [List.mem_append] at hx1 ⊢
        rcases hx1 with h | h
        · rw [List.mem_append] at h ⊢
          rcases h with h | h
          · rw [List.mem_append] at h
            rcases h with h | h
            · exact Or.inl (Or.inl (List.mem_cons_of_mem _ h))
            · exact Or.inr (hnb _ x h)
          · exact Or.inl (Or.inr h)
        · exact Or.inr h
      · intro hv
        exact hx2 (List.mem_cons_of_mem _ hv)
    rw [Finset.ssubset_iff_of_subset hsub]
    refine ⟨current, ?_, ?_⟩
    · simp only [Finset.mem_sdiff, List.mem_toFinset]
      constructor
      · exact List.mem_append.mpr (Or.inl (List.mem_append.mpr
          (Or.inl (List.mem_cons_self _ _))))
      · assumption
    · intro hmem'
      simp only [Finset.mem_sdiff, List.mem_toFinset] at hmem'
      exact hmem'.2 (List.mem_cons_self _ _)

/-- `broadcastPath`: BFS flood order from `start`. -/
def broadcastPath (g : NetworkGraph) (start : String) : List String :=
  bfsAux g [] [start] []

/-- `calculateOptimalRoute`. -/
def calculateOptimalRoute (nodes : List NetworkNode)
    (connections : List NetworkConnection) (fromId toId : String) :
    Option RoutingResult :=
  findShortestPath (buildGraph nodes connections) fromId toId

/-- `calculateBroadcastRoute`. -/
def calculateBroadcastRoute (nodes : List NetworkNode)
    (connections : List NetworkConnection) (fromId : String) : List String :=
  broadcastPath (buildGraph nodes connections) fromId

/-- Reachability along the (directed) neighbor structure of the graph:
the walks `findShortestPath` and `broadcastPath` can follow. -/
inductive Reachable (g : NetworkGraph) (s : String) : String → Prop
  | refl : Reachable g s s
  | step {x y : String} : Reachable g s x → y ∈ getConnectedNodes g x →
      Reachable g s y

/-- Reachability in exactly `n` neighbor steps. -/
inductive ReachN (g : NetworkGraph) (s : String) : String → Nat → Prop
  | refl : ReachN g s s 0
  | step {x y : String} {n : Nat} : ReachN g s x n →
      y ∈ getConnectedNodes g x → ReachN g s y (n + 1)

/-- Reachability from `a` through nodes that all avoid the set `V`
(`a` itself included): the BFS completeness invariant. -/
inductive AvoidReach (g : NetworkGraph) (V : List String) (a : String) :
    String → Prop
  | refl : a ∉ V → AvoidReach g V a a
  | step {b c : String} : AvoidReach g V a b → c ∈ getConnectedNodes g b →
      c ∉ V → AvoidReach g V a c

/-- Modelled from the spec: the weight the specification says an edge of
the returned route has, "recomputed independently from the link list as
`distance * 10 + latency / 10`" — the weight of the first active
connection joining the two endpoints (`0` if none exists). -/
def specConnWeight (conns : List NetworkConnection) (a b : String) : ℚ :=
  match conns.find? (fun c => c.isActive && decide (joins c a b)) with
  | some c => calculateEdgeWeight c
  | none => 0

/-- Modelled from the spec: the total cost of a route, as the sum of the
recomputed weights of its consecutive edges. -/
def specRecomputedCost (conns : List NetworkConnection) : List String → ℚ
  | a :: b :: rest => specConnWeight conns a b + specRecomputedCost conns (b :: rest)
  | _ => 0

/-- A display-irrelevant node record with a given id. -/
def mkNode (s : String) : NetworkNode :=
  ⟨0, s, s, 0, 0, true, 100⟩

/-- The three nodes of the spec's concrete scenario. -/
def specNodes : List NetworkNode :=
  [mkNode "A", mkNode "B", mkNode "C"]

/-- The two links of the spec's concrete scenario: `A–B` and `B–C`,
distance 1, latency 10, both active. -/
def specConns : List NetworkConnection :=
  [⟨1, "A", "B", 1, 10, true⟩, ⟨2, "B", "C", 1, 10, true⟩]

/-- The graph of the spec's concrete scenario. -/
def gDemo : NetworkGraph :=
  buildGraph specNodes specConns

/-- Two active connections joining the same endpoint pair with different
weights (counterexample input for the duplicate-pair case). -/
def dupConns : List NetworkConnection :=
  [⟨1, "A", "B", 1, 0, true⟩, ⟨2, "A", "B", 2, 0, true⟩]

/-- Node list for the duplicate-pair counterexample. -/
def dupNodes : List NetworkNode :=
  [mkNode "A", mkNode "B"]

/-- A connection whose `fromNodeId` (`"GHOST"`) is not a node id while its
`toNodeId` (`"B"`) is (input for the dangling-endpoint claim). -/
def danglingConns : List NetworkConnection :=
  [⟨1, "A", "B", 1, 0, true⟩, ⟨2, "GHOST", "B", 1, 0, true⟩]

/-- The graph with a dangling connection endpoint. -/
def gDangling : NetworkGraph :=
  buildGraph dupNodes danglingConns

theorem mapGet_mapSet {α : Type} (m : List (String × α)) (k x : String) (v : α) :
    mapGet (mapSet m k v) x = if k = x then some v else mapGet m x := by
  induction m with
  | nil =>
    simp [mapSet, mapGet]
  | cons p rest ih =>
    rw [mapSet]
    by_cases hk : p.1 = k
    · rw [if_pos hk, mapGet, mapGet]
      by_cases hx : k = x
      · rw [if_pos hx, if_pos hx]
      · rw [if_neg hx, if_neg hx, if_neg (by rw [hk]; exact hx)]
    · rw [if_neg hk, mapGet, mapGet]
      by_cases hx : p.1 = x
      · rw [if_pos hx, if_pos hx, if_neg (by intro h; exact hk (hx.trans h.symm))]
      · rw [if_neg hx, if_neg hx, ih]

theorem mapGet_eq_some_mem {α : Type} {m : List (String × α)} {k : String}
    {v : α} (h : mapGet m k = some v) : (k, v) ∈ m := by
  induction m with
  | nil => simp [mapGet] at h
  | cons p rest ih =>
    rw [mapGet] at h
    by_cases hp : p.1 = k
    · rw [if_pos hp] at h
      simp only [Option.some.injEq] at h
      have : p = (k, v) := by
        cases p
        simp only at hp h
        rw [hp, h]
      rw [← this]
      exact List.mem_cons_self _ _
    · rw [if_neg hp] at h
      exact List.mem_cons_of_mem _ (ih h)

theorem mapGet_isSome_iff {α : Type} (m : List (String × α)) (k : String) :
    (mapGet m k).isSome = true ↔ k ∈ m.map Prod.fst := by
  induction m with
  | nil => simp [mapGet]
  | cons p rest ih =>
    rw [mapGet]
    by_cases hp : p.1 = k
    · simp [hp]
    · rw [if_neg hp]
      simp only [List.map_cons, List.mem_cons]
      rw [ih]
      constructor
      · exact Or.inr
      · rintro (h | h)
        · exact absurd h.symm hp
        · exact h

theorem mapGet_eq_none_iff {α : Type} (m : List (String × α)) (k : String) :
    mapGet m k = none ↔ k ∉ m.map Prod.fst := by
  rw [← mapGet_isSome_iff]
  cases mapGet m k <;> simp

theorem mem_keys_mapSet {α : Type} (m : List (String × α)) (k x : String) (v : α) :
    x ∈ (mapSet m k v).map Prod.fst ↔ x = k ∨ x ∈ m.map Prod.fst := by
  induction m with
  | nil => simp [mapSet]
  | cons p rest ih =>
    rw [mapSet]
    by_cases hp : p.1 = k
    · rw [if_pos hp]
      simp only [List.map_cons, List.mem_cons, hp]
      tauto
    · rw [if_neg hp]
      simp only [List.map_cons, List.mem_cons]
      rw [ih]
      tauto

theorem keys_mapSet_of_mem {α : Type} (m : List (String × α)) (k : String)
    (v : α) (h : k ∈ m.map Prod.fst) :
    (mapSet m k v).map Prod.fst = m.map Prod.fst := by
  induction m with
  | nil => simp at h
  | cons p rest ih =>
    rw [mapSet]
    by_cases hp : p.1 = k
    · rw [if_pos hp, List.map_cons, List.map_cons, hp]
    · rw [if_neg hp, List.map_cons, List.map_cons, ih]
      simp only [List.map_cons, List.mem_cons] at h
      rcases h with h | h
      · exact absurd h.symm hp
      · exact h

theorem bfsAux_nil (g : NetworkGraph) (visited order : List String) :
    bfsAux g visited [] order = order := by
  rw [bfsAux.eq_def]

theorem bfsAux_visited (g : NetworkGraph) (visited rest order : List String)
    (current : String) (h : current ∈ visited) :
    bfsAux g visited (current :: rest) order = bfsAux g visited rest order := by
  rw [bfsAux.eq_def]
  simp [h]

theorem bfsAux_visit (g : NetworkGraph) (visited rest order : List String)
    (current : String) (h : current ∉ visited) :
    bfsAux g visited (current :: rest) order =
      bfsAux g (current :: visited)
        (rest ++ (getConnectedNodes g current).filter
          (fun n => decide (¬ n ∈ current :: visited)))
        (order ++ [current]) := by
  rw [bfsAux.eq_def]
  simp [h]

theorem foldl_mapSet_const {α β : Type} (l : List β) (key : β → String) (c : α)
    (m0 : List (String × α)) (k : String) :
    mapGet (l.foldl (fun m a => mapSet m (key a) c) m0) k =
      if k ∈ l.map key then some c else mapGet m0 k := by
  induction l generalizing m0 with
  | nil => simp
  | cons a rest ih =>
    rw [List.foldl_cons, ih]
    by_cases hr : k ∈ rest.map key
    · rw [if_pos hr, if_pos (by simp [hr])]
    · rw [if_neg hr, mapGet_mapSet]
      by_cases ha : key a = k
      · rw [if_pos ha, if_pos (by simp [ha.symm])]
      · rw [if_neg ha,
          if_neg (by simp only [List.map_cons, List.mem_cons]; tauto)]

theorem foldl_mapSet_values {α β : Type} (l : List β) (key : β → String)
    (val : β → α) (m0 : List (String × α)) (k : String) (v : α)
    (h : mapGet (l.foldl (fun m a => mapSet m (key a) (val a)) m0) k = some v) :
    (∃ a ∈ l, v = val a) ∨ mapGet m0 k = some v := by
  induction l generalizing m0 with
  | nil => exact Or.inr h
  | cons a rest ih =>
    rw [List.foldl_cons] at h
    rcases ih _ h with h' | h'
    · rcases h' with ⟨b, hb, hv⟩
      exact Or.inl ⟨b, List.mem_cons_of_mem _ hb, hv⟩
    · rw [mapGet_mapSet] at h'
      by_cases ha : key a = k
      · rw [if_pos ha] at h'
        simp only [Option.some.injEq] at h'
        exact Or.inl ⟨a, List.mem_cons_self _ _, h'.symm⟩
      · rw [if_neg ha] at h'
        exact Or.inr h'

theorem foldl_mapSet_isSome {α β : Type} (l : List β) (key : β → String)
    (val : β → α) (m0 : List (String × α)) (k : String) :
    (mapGet (l.foldl (fun m a => mapSet m (key a) (val a)) m0) k).isSome = true ↔
      k ∈ l.map key ∨ (mapGet m0 k).isSome = true := by
  induction l generalizing m0 with
  | nil => simp
  | cons a rest ih =>
    rw [List.foldl_cons, ih, mapGet_mapSet]
    by_cases ha : key a = k
    · simp [ha]
    · rw [if_neg ha]
      simp only [List.map_cons, List.mem_cons]
      constructor
      · rintro (h | h)
        · exact Or.inl (Or.inr h)
        · exact Or.inr h
      · rintro ((h | h) | h)
        · exact absurd h.symm ha
        · exact Or.inl h
        · exact Or.inr h

theorem foldGraph_nodes (nodes : List NetworkNode) (g0 : NetworkGraph) :
    (nodes.foldl (fun g node =>
        ⟨mapSet g.nodes node.nodeId node, mapSet g.adjacencyList node.nodeId []⟩)
      g0).nodes =
      nodes.foldl (fun m node => mapSet m node.nodeId node) g0.nodes := by
  induction nodes generalizing g0 with
  | nil => rfl
  | cons n rest ih => rw [List.foldl_cons, List.foldl_cons, ih]

theorem foldGraph_adj (nodes : List NetworkNode) (g0 : NetworkGraph) :
    (nodes.foldl (fun g node =>
        ⟨mapSet g.nodes node.nodeId node, mapSet g.adjacencyList node.nodeId []⟩)
      g0).adjacencyList =
      nodes.foldl (fun m node => mapSet m node.nodeId []) g0.adjacencyList := by
  induction nodes generalizing g0 with
  | nil => rfl
  | cons n rest ih => rw [List.foldl_cons, List.foldl_cons, ih]

theorem initGraph_nodes (nodes : List NetworkNode) :
    (initGraph nodes).nodes =
      nodes.foldl (fun m node => mapSet m node.nodeId node) [] :=
  foldGraph_nodes nodes ⟨[], []⟩

theorem initGraph_adj (nodes : List NetworkNode) :
    (initGraph nodes).adjacencyList =
      nodes.foldl (fun m node => mapSet m node.nodeId []) [] :=
  foldGraph_adj nodes ⟨[], []⟩

theorem initGraph_adj_mapGet (nodes : List NetworkNode) (k : String) :
    mapGet (initGraph nodes).adjacencyList k =
      if k ∈ nodes.map NetworkNode.nodeId then some [] else none := by
  rw [initGraph_adj, foldl_mapSet_const]
  rfl

theorem mapMem_initGraph (nodes : List NetworkNode) (k : String) :
    mapMem (initGraph nodes).nodes k = true ↔
      k ∈ nodes.map NetworkNode.nodeId := by
  unfold mapMem
  rw [initGraph_nodes, foldl_mapSet_isSome]
  simp [mapGet]

theorem buildGraph_nodes (nodes : List NetworkNode)
    (conns : List NetworkConnection) :
    (buildGraph nodes conns).nodes = (initGraph nodes).nodes := rfl

theorem jsOrTop_initDistances (keys : List String) (s x : String) :
    jsOrTop (mapGet (initDistances keys s) x) = ⊤ := by
  cases h : mapGet (initDistances keys s) x with
  | none => rfl
  | some v =>
    unfold initDistances at h
    rcases foldl_mapSet_values keys (fun a => a)
        (fun nodeId => if nodeId = s then (0 : WithTop ℚ) else ⊤) [] x v h with
      ⟨a, _, hv⟩ | h'
    · by_cases ha : a = s
      · rw [hv, if_pos ha]
        simp [jsOrTop]
      · rw [hv, if_neg ha]
        simp [jsOrTop]
    · simp [mapGet] at h'

theorem selectMin_all_top (distances : List (String × WithTop ℚ))
    (unvisited : List String)
    (h : ∀ x ∈ unvisited, jsOrTop (mapGet distances x) = ⊤) :
    selectMin distances unvisited = (none, ⊤) := by
  unfold selectMin
  induction unvisited with
  | nil => rfl
  | cons a rest ih =>
    rw [List.foldl_cons]
    have ha := h a (List.mem_cons_self _ _)
    rw [ha]
    rw [if_neg (by simp)]
    exact ih (fun x hx => h x (List.mem_cons_of_mem _ hx))

theorem jsOrNull_initPrevious (keys : List String) (x : String) :
    jsOrNull (mapGet (initPrevious keys) x) = none := by
  cases h : mapGet (initPrevious keys) x with
  | none => rfl
  | some v =>
    unfold initPrevious at h
    rcases foldl_mapSet_values keys (fun a => a)
        (fun _ => (none : Option String)) [] x v h with ⟨a, _, hv⟩ | h'
    · rw [hv]
      rfl
    · simp [mapGet] at h'

theorem dijkstraLoop_all_top (g : NetworkGraph) (endId : String) (fuel : Nat)
    (distances : List (String × WithTop ℚ))
    (previous : List (String × Option String)) (unvisited : List String)
    (h : ∀ x ∈ unvisited, jsOrTop (mapGet distances x) = ⊤) :
    dijkstraLoop g endId fuel (distances, previous, unvisited) =
      (distances, previous, unvisited) := by
  cases fuel with
  | zero => rfl
  | succ n =>
    rw [dijkstraLoop]
    by_cases hu : unvisited.isEmpty
    · rw [if_pos hu]
    · rw [if_neg hu]
      have hsel := selectMin_all_top distances unvisited h
      rw [hsel]
      rw [if_pos (by rw [jsFalsyStr]; exact Or.inl rfl)]

theorem reconLoop_none (previous : List (String × Option String)) (fuel : Nat)
    (path : List String) : reconLoop previous fuel none path = path := by
  cases fuel <;> rfl

theorem findShortestPath_spec (g : NetworkGraph) (s e : String) :
    findShortestPath g s e =
      if mapMem g.nodes s = true ∧ mapMem g.nodes e = true ∧ s = e then
        some ⟨[s], 0, 0⟩
      else none := by
  unfold findShortestPath
  by_cases hmem : mapMem g.nodes s = true ∧ mapMem g.nodes e = true
  · rw [if_neg (not_not_intro hmem)]
    by_cases hse : s = e
    · rw [if_pos hse, if_pos ⟨hmem.1, hmem.2, hse⟩]
    · rw [if_neg hse]
      dsimp only
      rw [dijkstraLoop_all_top g e _ _ _ _
        (fun x _ => jsOrTop_initDistances (vertexList g) s x)]
      have hrec : reconLoop (initPrevious (vertexList g)) (g.nodes.length + 1)
          (some e) [] = [e] := by
        rw [reconLoop, jsOrNull_initPrevious, reconLoop_none]
      rw [hrec]
      simp only [List.head?_cons, Option.some.injEq]
      rw [if_neg (fun h => hse h.symm),
        if_neg (by rintro ⟨-, -, h⟩; exact hse h)]
  · rw [if_pos hmem, if_neg (by rintro ⟨h1, h2, -⟩; exact hmem ⟨h1, h2⟩)]

theorem findShortestPath_eq_some_iff (g : NetworkGraph) (s e : String)
    (r : RoutingResult) :
    findShortestPath g s e = some r ↔
      mapMem g.nodes s = true ∧ mapMem g.nodes e = true ∧ s = e ∧
        r = ⟨[s], 0, 0⟩ := by
  rw [findShortestPath_spec]
  by_cases h : mapMem g.nodes s = true ∧ mapMem g.nodes e = true ∧ s = e
  · rw [if_pos h]
    simp only [Option.some.injEq]
    constructor
    · intro hr
      exact ⟨h.1, h.2.1, h.2.2, hr.symm⟩
    · intro hr
      exact hr.2.2.2.symm
  · rw [if_neg h]
    simp only [false_iff, reduceCtorEq]
    intro hr
    exact h ⟨hr.1, hr.2.1, hr.2.2.1⟩

theorem mapMem_iff_vertexList (g : NetworkGraph) (k : String) :
    mapMem g.nodes k = true ↔ k ∈ vertexList g := by
  unfold mapMem vertexList
  exact mapGet_isSome_iff g.nodes k

/-- C4: for every topology and every id X that is a vertex of it,
`findShortestPath(X, X)` returns the degenerate result with path `[X]`,
total distance 0 and 0 hops, regardless of connectivity. -/
theorem claim4_self_route (nodes : List NetworkNode)
    (conns : List NetworkConnection) (X : String)
    (hX : X ∈ vertexList (buildGraph nodes conns)) :
    findShortestPath (buildGraph nodes conns) X X = some ⟨[X], 0, 0⟩ := by
  rw [findShortestPath_spec]
  have hmem : mapMem (buildGraph nodes conns).nodes X = true :=
    (mapMem_iff_vertexList _ _).mpr hX
  rw [if_pos ⟨hmem, hmem, rfl⟩]

theorem claim4_self_route_witness :
    findShortestPath (buildGraph specNodes specConns) "A" "A" =
      some ⟨["A"], 0, 0⟩ :=
  claim4_self_route specNodes specConns "A" (by decide)

/-- C1: evaluation at the spec's own concrete scenario shows the claim's
"null means no walk exists" direction is false of the code: in the graph
with active links `A–B` and `B–C` (each of weight `1*10 + 10/10 = 11`, so
the walk `A,B,C` exists), `findShortestPath("A","C")` returns null,
because the `|| Infinity` default in the minimum-selection loop turns the
source's tentative distance 0 into Infinity and no vertex is ever
settled. -/
theorem claim1_shortest_path_bug :
    findShortestPath gDemo "A" "C" = none ∧
      edgeWeight gDemo "A" "B" = some 11 ∧
      edgeWeight gDemo "B" "C" = some 11 := by
  refine ⟨by decide, ?_, ?_⟩
  · have h : edgeWeight gDemo "A" "B" =
        some (calculateEdgeWeight ⟨1, "A", "B", 1, 10, true⟩) := rfl
    rw [h]
    norm_num [calculateEdgeWeight]
  · have h : edgeWeight gDemo "B" "C" =
        some (calculateEdgeWeight ⟨2, "B", "C", 1, 10, true⟩) := rfl
    rw [h]
    norm_num [calculateEdgeWeight]

/-- C3: evaluation at the spec's concrete scenario shows the claimed
"null exactly when an endpoint is absent or no path exists" is false of
the code: both `"A"` and `"C"` are vertices and a walk between them
exists, yet `findShortestPath("A","C")` is null. -/
theorem claim3_null_signaling_bug :
    mapMem gDemo.nodes "A" = true ∧ mapMem gDemo.nodes "C" = true ∧
      Reachable gDemo "A" "C" ∧ findShortestPath gDemo "A" "C" = none := by
  refine ⟨by decide, by decide, ?_, by decide⟩
  have hAB : "B" ∈ getConnectedNodes gDemo "A" := by decide
  have hBC : "C" ∈ getConnectedNodes gDemo "B" := by decide
  exact Reachable.step (Reachable.step Reachable.refl hAB) hBC

/-- C6: whenever `findShortestPath` returns a result, its `totalDistance`
equals the sum of the weights of its consecutive edges recomputed from the
connection list, and `hops` equals the path length minus one. -/
theorem claim6_cost_consistency (nodes : List NetworkNode)
    (conns : List NetworkConnection) (s e : String) (r : RoutingResult)
    (h : findShortestPath (buildGraph nodes conns) s e = some r) :
    r.totalDistance = ((specRecomputedCost conns r.path : ℚ) : WithTop ℚ) ∧
      r.hops = r.path.length - 1 := by
  rcases (findShortestPath_eq_some_iff _ _ _ _).mp h with ⟨-, -, -, hr⟩
  subst hr
  exact ⟨by simp [specRecomputedCost], rfl⟩

theorem claim6_cost_consistency_witness :
    findShortestPath (buildGraph specNodes specConns) "A" "A" =
        some ⟨["A"], 0, 0⟩ ∧
      ((⟨["A"], 0, 0⟩ : RoutingResult).totalDistance =
          ((specRecomputedCost specConns ["A"] : ℚ) : WithTop ℚ) ∧
        (⟨["A"], 0, 0⟩ : RoutingResult).hops = (["A"] : List String).length - 1) :=
  ⟨by decide, claim6_cost_consistency specNodes specConns "A" "A" _ (by decide)⟩

/-- C8: deactivating one active connection never decreases the
shortest-path cost between any two ids: on the reduced topology the
search either returns null or returns a cost at least the original one. -/
theorem claim8_deactivation_monotone (nodes : List NetworkNode)
    (pre post : List NetworkConnection) (c : NetworkConnection)
    (hnn : ∀ cc ∈ pre ++ c :: post, 0 ≤ cc.distance ∧ 0 ≤ cc.latency)
    (hact : c.isActive = true) (X Y : String) :
    findShortestPath
        (buildGraph nodes (pre ++ { c with isActive := false } :: post)) X Y =
        none ∨
      ∀ r', findShortestPath
          (buildGraph nodes (pre ++ { c with isActive := false } :: post)) X Y =
          some r' →
        ∃ r, findShortestPath (buildGraph nodes (pre ++ c :: post)) X Y =
            some r ∧ r.totalDistance ≤ r'.totalDistance := by
    right
    intro r' hr'
    rcases (findShortestPath_eq_some_iff _ _ _ _).mp hr' with ⟨hX, hY, hXY, hrr⟩
    refine ⟨⟨[X], 0, 0⟩, ?_, ?_⟩
    · rw [findShortestPath_eq_some_iff]
      refine ⟨?_, ?_, hXY, rfl⟩
      · rw [buildGraph_nodes] at hX ⊢
        exact hX
      · rw [buildGraph_nodes] at hY ⊢
        exact hY
    · rw [hrr]

theorem claim8_deactivation_monotone_witness :
    (∀ cc ∈ [(⟨1, "A", "B", 1, 10, true⟩ : NetworkConnection)] ++
        (⟨2, "B", "C", 1, 10, true⟩ : NetworkConnection) :: [],
      0 ≤ cc.distance ∧ 0 ≤ cc.latency) ∧
    (findShortestPath (buildGraph specNodes
        ([⟨1, "A", "B", 1, 10, true⟩] ++
          ({ (⟨2, "B", "C", 1, 10, true⟩ : NetworkConnection) with
              isActive := false } : NetworkConnection) :: [])) "A" "C" = none ∨
      ∀ r', findShortestPath (buildGraph specNodes
          ([⟨1, "A", "B", 1, 10, true⟩] ++
            ({ (⟨2, "B", "C", 1, 10, true⟩ : NetworkConnection) with
                isActive := false } : NetworkConnection) :: [])) "A" "C" =
          some r' →
        ∃ r, findShortestPath (buildGraph specNodes
            ([⟨1, "A", "B", 1, 10, true⟩] ++
              (⟨2, "B", "C", 1, 10, true⟩ : NetworkConnection) :: [])) "A" "C" =
            some r ∧ r.totalDistance ≤ r'.totalDistance) :=
  ⟨by norm_num, claim8_deactivation_monotone specNodes
    [⟨1, "A", "B", 1, 10, true⟩] [] ⟨2, "B", "C", 1, 10, true⟩
    (by norm_num) rfl "A" "C"⟩

theorem keys_mapSet_of_not_mem {α : Type} (m : List (String × α)) (k : String)
    (v : α) (h : k ∉ m.map Prod.fst) :
    (mapSet m k v).map Prod.fst = m.map Prod.fst ++ [k] := by
  induction m with
  | nil => simp [mapSet]
  | cons p rest ih =>
    simp only [List.map_cons, List.mem_cons] at h
    rw [mapSet, if_neg (fun hp => h (Or.inl hp.symm)), List.map_cons,
      ih (fun hr => h (Or.inr hr)), List.map_cons, List.cons_append]

theorem nodup_keys_mapSet {α : Type} (m : List (String × α)) (k : String)
    (v : α) (h : (m.map Prod.fst).Nodup) :
    ((mapSet m k v).map Prod.fst).Nodup := by
  by_cases hk : k ∈ m.map Prod.fst
  · rw [keys_mapSet_of_mem m k v hk]
    exact h
  · rw [keys_mapSet_of_not_mem m k v hk]
    rw [List.nodup_append]
    refine ⟨h, List.nodup_singleton _, ?_⟩
    intro x hx hk'
    rw [List.mem_singleton] at hk'
    exact hk (hk' ▸ hx)

theorem nodup_keys_foldl_mapSet {α β : Type} (l : List β) (key : β → String)
    (val : β → α) (m0 : List (String × α)) (h : (m0.map Prod.fst).Nodup) :
    (((l.foldl (fun m a => mapSet m (key a) (val a)) m0)).map Prod.fst).Nodup := by
  induction l generalizing m0 with
  | nil => exact h
  | cons a rest ih =>
    rw [List.foldl_cons]
    exact ih _ (nodup_keys_mapSet _ _ _ h)

theorem vertexList_nodup (nodes : List NetworkNode)
    (conns : List NetworkConnection) :
    (vertexList (buildGraph nodes conns)).Nodup := by
  unfold vertexList
  rw [buildGraph_nodes, initGraph_nodes]
  exact nodup_keys_foldl_mapSet nodes NetworkNode.nodeId (fun n => n) [] (by simp)

theorem findAllPaths_fold (g : NetworkGraph) (X : String) (keys : List String)
    (acc : List (String × RoutingResult)) (hnd : keys.Nodup)
    (hacc : ∀ y ∈ keys, mapGet acc y = none) (Y : String) :
    mapGet (keys.foldl
      (fun results nodeId =>
        if nodeId ≠ X then
          match findShortestPath g X nodeId with
          | some result => mapSet results nodeId result
          | none => results
        else results) acc) Y =
      if Y ∈ keys ∧ Y ≠ X then findShortestPath g X Y else mapGet acc Y := by
  induction keys generalizing acc with
  | nil => simp
  | cons k rest ih =>
    rw [List.foldl_cons]
    have hnd' := (List.nodup_cons.mp hnd)
    have hstep : ∀ y, y ≠ k →
        mapGet (if k ≠ X then
          match findShortestPath g X k with
          | some result => mapSet acc k result
          | none => acc
        else acc) y = mapGet acc y := by
      intro y hy
      by_cases hkX : k ≠ X
      · rw [if_pos hkX]
        cases findShortestPath g X k with
        | none => rfl
        | some r =>
          simp only
          rw [mapGet_mapSet, if_neg (fun h => hy h.symm)]
      · rw [if_neg hkX]
    rw [ih _ hnd'.2 (fun y hy => by
      rw [hstep y (fun h => hnd'.1 (h ▸ hy))]
      exact hacc y (List.mem_cons_of_mem _ hy))]
    by_cases hYr : Y ∈ rest ∧ Y ≠ X
    · rw [if_pos hYr, if_pos ⟨List.mem_cons_of_mem _ hYr.1, hYr.2⟩]
    · rw [if_neg hYr]
      by_cases hYk : Y = k
      · subst hYk
        by_cases hYX : Y = X
        · have h1 : ¬ (Y ∈ Y :: rest ∧ Y ≠ X) := by
            rintro ⟨-, h⟩
            exact h hYX
          rw [if_neg h1, if_neg (not_not_intro hYX)]
        · have h1 : Y ∈ Y :: rest ∧ Y ≠ X := ⟨List.mem_cons_self _ _, hYX⟩
          rw [if_pos h1, if_pos hYX]
          cases hfs : findShortestPath g X Y with
          | none =>
            show mapGet acc Y = none
            exact hacc Y (List.mem_cons_self _ _)
          | some r =>
            show mapGet (mapSet acc Y r) Y = some r
            rw [mapGet_mapSet, if_pos rfl]
      · rw [hstep Y hYk]
        have h1 : ¬ (Y ∈ k :: rest ∧ Y ≠ X) := by
          rintro ⟨hmem, hne⟩
          rcases List.mem_cons.mp hmem with h | h
          · exact hYk h
          · exact hYr ⟨h, hne⟩
        rw [if_neg h1]

/-- C7: the mapping returned by `findAllPaths(X)` has an entry at `Y`
exactly when `Y` is a vertex other than `X` and `findShortestPath(X, Y)`
is non-null, and that entry is exactly `findShortestPath(X, Y)`; it never
has an entry at `X`, and unreachable destinations are simply absent. -/
theorem claim7_all_paths_pointwise (nodes : List NetworkNode)
    (conns : List NetworkConnection) (X Y : String) (r : RoutingResult) :
    mapGet (findAllPaths (buildGraph nodes conns) X) Y = some r ↔
      Y ∈ vertexList (buildGraph nodes conns) ∧ Y ≠ X ∧
        findShortestPath (buildGraph nodes conns) X Y = some r := by
  unfold findAllPaths
  rw [findAllPaths_fold (buildGraph nodes conns) X (vertexList (buildGraph nodes conns))
    [] (vertexList_nodup nodes conns) (fun y _ => rfl) Y]
  by_cases h : Y ∈ vertexList (buildGraph nodes conns) ∧ Y ≠ X
  · rw [if_pos h]
    constructor
    · intro hr
      exact ⟨h.1, h.2, hr⟩
    · intro hr
      exact hr.2.2
  · rw [if_neg h]
    constructor
    · intro hr
      simp [mapGet] at hr
    · rintro ⟨h1, h2, -⟩
      exact absurd ⟨h1, h2⟩ h

theorem mapGet_adjSetEdge (adj : List (String × List (String × ℚ)))
    (a b x : String) (w : ℚ) :
    mapGet (adjSetEdge adj a b w) x =
      if a = x then (mapGet adj a).map (fun nbrs => mapSet nbrs b w)
      else mapGet adj x := by
  unfold adjSetEdge
  cases h : mapGet adj a with
  | none =>
    by_cases hx : a = x
    · rw [if_pos hx, Option.map_none']
      show mapGet adj x = none
      rw [← hx]
      exact h
    · rw [if_neg hx]
  | some nbrs =>
    rw [mapGet_mapSet]
    by_cases hx : a = x
    · rw [if_pos hx, if_pos hx, Option.map_some']
    · rw [if_neg hx, if_neg hx]

theorem adjWeight_adjSetEdge_other (adj : List (String × List (String × ℚ)))
    (x y a b : String) (w : ℚ) (h : a ≠ x ∨ b ≠ y) :
    adjWeight (adjSetEdge adj x y w) a b = adjWeight adj a b := by
  unfold adjWeight
  rw [mapGet_adjSetEdge]
  by_cases hx : x = a
  · rw [if_pos hx]
    have hby : b ≠ y := by
      rcases h with h | h
      · exact absurd hx.symm h
      · exact h
    cases hga : mapGet adj x with
    | none =>
      rw [Option.map_none', hx] at *
      rw [hga]
    | some nbrs =>
      rw [Option.map_some', hx] at *
      rw [hga]
      simp only [Option.some_bind]
      rw [mapGet_mapSet, if_neg (fun hyb => hby hyb.symm)]
  · rw [if_neg hx]

theorem adjWeight_adjSetEdge_self (adj : List (String × List (String × ℚ)))
    (a b : String) (w : ℚ) (h : a ∈ adj.map Prod.fst) :
    adjWeight (adjSetEdge adj a b w) a b = some w := by
  unfold adjWeight
  rw [mapGet_adjSetEdge, if_pos rfl]
  have := (mapGet_isSome_iff adj a).mpr h
  cases hga : mapGet adj a with
  | none => rw [hga] at this; simp at this
  | some nbrs =>
    rw [Option.map_some']
    simp only [Option.some_bind]
    rw [mapGet_mapSet, if_pos rfl]

theorem keys_adjSetEdge (adj : List (String × List (String × ℚ)))
    (a b : String) (w : ℚ) :
    (adjSetEdge adj a b w).map Prod.fst = adj.map Prod.fst := by
  unfold adjSetEdge
  cases h : mapGet adj a with
  | none => rfl
  | some nbrs =>
    exact keys_mapSet_of_mem adj a _
      ((mapGet_isSome_iff adj a).mp (by rw [h]; rfl))

theorem keys_connStep (adj : List (String × List (String × ℚ)))
    (c : NetworkConnection) :
    (connStep adj c).map Prod.fst = adj.map Prod.fst := by
  unfold connStep
  by_cases h : c.isActive
  · rw [if_pos h, keys_adjSetEdge, keys_adjSetEdge]
  · rw [if_neg h]

theorem keys_connFold (conns : List NetworkConnection)
    (adj : List (String × List (String × ℚ))) :
    (conns.foldl connStep adj).map Prod.fst = adj.map Prod.fst := by
  induction conns generalizing adj with
  | nil => rfl
  | cons c rest ih => rw [List.foldl_cons, ih, keys_connStep]

theorem joins_symm (c : NetworkConnection) (a b : String) :
    joins c a b ↔ joins c b a := by
  unfold joins
  tauto

theorem adjWeight_connStep_other (adj : List (String × List (String × ℚ)))
    (c : NetworkConnection) (a b : String) (h : ¬ joins c a b) :
    adjWeight (connStep adj c) a b = adjWeight adj a b := by
  unfold connStep
  by_cases hact : c.isActive
  · rw [if_pos hact]
    unfold joins at h
    rw [adjWeight_adjSetEdge_other _ _ _ _ _ _
        (by by_cases h1 : c.toNodeId = a
            · right
              intro hb
              exact h (Or.inr ⟨h1, hb.symm⟩)
            · exact Or.inl (fun ha => h1 ha.symm)),
      adjWeight_adjSetEdge_other _ _ _ _ _ _
        (by by_cases h1 : c.fromNodeId = a
            · right
              intro hb
              exact h (Or.inl ⟨h1, hb.symm⟩)
            · exact Or.inl (fun ha => h1 ha.symm))]
  · rw [if_neg hact]

theorem adjWeight_connFold_other (conns : List NetworkConnection)
    (adj : List (String × List (String × ℚ))) (a b : String)
    (h : ∀ c ∈ conns, c.isActive = true → ¬ joins c a b) :
    adjWeight (conns.foldl connStep adj) a b = adjWeight adj a b := by
  induction conns generalizing adj with
  | nil => rfl
  | cons c rest ih =>
    rw [List.foldl_cons, ih _ (fun c' hc' => h c' (List.mem_cons_of_mem _ hc'))]
    by_cases hact : c.isActive
    · exact adjWeight_connStep_other adj c a b
        (h c (List.mem_cons_self _ _) hact)
    · unfold connStep
      rw [if_neg hact]

theorem adjWeight_connStep_self (adj : List (String × List (String × ℚ)))
    (c : NetworkConnection) (hact : c.isActive = true)
    (hf : c.fromNodeId ∈ adj.map Prod.fst) (ht : c.toNodeId ∈ adj.map Prod.fst) :
    adjWeight (connStep adj c) c.fromNodeId c.toNodeId =
        some (calculateEdgeWeight c) ∧
      adjWeight (connStep adj c) c.toNodeId c.fromNodeId =
        some (calculateEdgeWeight c) := by
  unfold connStep
  rw [if_pos hact]
  have hkeys : c.toNodeId ∈ (adjSetEdge adj c.fromNodeId c.toNodeId
      (calculateEdgeWeight c)).map Prod.fst := by
    rw [keys_adjSetEdge]
    exact ht
  constructor
  · by_cases hft : c.fromNodeId = c.toNodeId
    · have hkeys' : c.toNodeId ∈ (adjSetEdge adj c.toNodeId c.toNodeId
          (calculateEdgeWeight c)).map Prod.fst := by
        rw [keys_adjSetEdge]
        exact ht
      rw [hft]
      exact adjWeight_adjSetEdge_self _ _ _ _ hkeys'
    · rw [adjWeight_adjSetEdge_other _ _ _ _ _ _ (Or.inl hft)]
      exact adjWeight_adjSetEdge_self _ _ _ _ hf
  · exact adjWeight_adjSetEdge_self _ _ _ _ hkeys

theorem initGraph_adjKeys (nodes : List NetworkNode) (k : String) :
    k ∈ (initGraph nodes).adjacencyList.map Prod.fst ↔
      k ∈ nodes.map NetworkNode.nodeId := by
  rw [← mapGet_isSome_iff, initGraph_adj_mapGet]
  by_cases h : k ∈ nodes.map NetworkNode.nodeId
  · rw [if_pos h]
    exact ⟨fun _ => h, fun _ => rfl⟩
  · rw [if_neg h]
    exact ⟨fun hk => Bool.noConfusion hk, fun hk => absurd hk h⟩

theorem adjWeight_initGraph (nodes : List NetworkNode) (a b : String) :
    adjWeight (initGraph nodes).adjacencyList a b = none := by
  unfold adjWeight
  rw [initGraph_adj_mapGet]
  by_cases h : a ∈ nodes.map NetworkNode.nodeId
  · rw [if_pos h]
    rfl
  · rw [if_neg h]
    rfl

/-- C2 (counterexample): with unique node ids `A, B` and two active
connections both joining `A–B` (weights 10 and 20), the adjacency entry
for the first connection does not carry that connection's weight — the
second `Map.set` overwrote it — so the claim as stated fails. -/
theorem claim2_counterexample :
    ¬ ((dupNodes.map NetworkNode.nodeId).Nodup →
      (∀ c ∈ dupConns, c.fromNodeId ∈ dupNodes.map NetworkNode.nodeId ∧
        c.toNodeId ∈ dupNodes.map NetworkNode.nodeId) →
      ∀ c ∈ dupConns, c.isActive = true →
        edgeWeight (buildGraph dupNodes dupConns) c.fromNodeId c.toNodeId =
            some (calculateEdgeWeight c) ∧
          edgeWeight (buildGraph dupNodes dupConns) c.toNodeId c.fromNodeId =
            some (calculateEdgeWeight c)) := by
  intro h
  have h1 := (h (by decide) (by decide) ⟨1, "A", "B", 1, 0, true⟩
    (by simp [dupConns]) rfl).1
  have h2 : edgeWeight (buildGraph dupNodes dupConns) "A" "B" =
      some (calculateEdgeWeight ⟨2, "A", "B", 2, 0, true⟩) := rfl
  have h3 : some (calculateEdgeWeight (⟨2, "A", "B", 2, 0, true⟩ :
      NetworkConnection)) = some (calculateEdgeWeight (⟨1, "A", "B", 1, 0, true⟩ :
      NetworkConnection)) := h2.symm.trans h1
  simp only [Option.some.injEq] at h3
  norm_num [calculateEdgeWeight] at h3

/-- C2 (amended): for node lists with unique ids, connection lists whose
endpoints all occur among the node ids, and in which no two distinct
active connections join the same endpoint pair, the adjacency structure
contains, for each active connection, the symmetric pair of entries with
weight `distance * 10 + latency / 10`, and contains no entry between ids
joined by no active connection. -/
theorem claim2_amended_adjacency (nodes : List NetworkNode)
    (conns : List NetworkConnection)
    (hu : (nodes.map NetworkNode.nodeId).Nodup)
    (hmem : ∀ c ∈ conns, c.fromNodeId ∈ nodes.map NetworkNode.nodeId ∧
      c.toNodeId ∈ nodes.map NetworkNode.nodeId)
    (hdist : List.Pairwise (fun c1 c2 => c1.isActive = true →
      c2.isActive = true → ¬ joins c2 c1.fromNodeId c1.toNodeId) conns) :
    (∀ c ∈ conns, c.isActive = true →
      edgeWeight (buildGraph nodes conns) c.fromNodeId c.toNodeId =
          some (calculateEdgeWeight c) ∧
        edgeWeight (buildGraph nodes conns) c.toNodeId c.fromNodeId =
          some (calculateEdgeWeight c)) ∧
    (∀ a b, (∀ c ∈ conns, c.isActive = true → ¬ joins c a b) →
      edgeWeight (buildGraph nodes conns) a b = none) := by
  constructor
  · intro c hc hact
    rcases List.append_of_mem hc with ⟨pre, post, rfl⟩
    have hsplit : (pre ++ c :: post).foldl connStep
        (initGraph nodes).adjacencyList =
        post.foldl connStep (connStep (pre.foldl connStep
          (initGraph nodes).adjacencyList) c) := by
      rw [List.foldl_append, List.foldl_cons]
    have hkeys : ∀ k, k ∈ (pre.foldl connStep
        (initGraph nodes).adjacencyList).map Prod.fst ↔
        k ∈ nodes.map NetworkNode.nodeId := by
      intro k
      rw [keys_connFold]
      exact initGraph_adjKeys nodes k
    have hcmem := hmem c (by simp)
    have hself := adjWeight_connStep_self
      (pre.foldl connStep (initGraph nodes).adjacencyList) c hact
      ((hkeys _).mpr hcmem.1) ((hkeys _).mpr hcmem.2)
    have hpost : ∀ c' ∈ post, c'.isActive = true →
        ¬ joins c' c.fromNodeId c.toNodeId := by
      intro c' hc' hact'
      have := (List.pairwise_append.mp hdist).2.1
      exact (List.pairwise_cons.mp this).1 c' hc' hact hact'
    have hadj : (buildGraph nodes (pre ++ c :: post)).adjacencyList =
        post.foldl connStep (connStep (pre.foldl connStep
          (initGraph nodes).adjacencyList) c) := hsplit
    constructor
    · unfold edgeWeight
      rw [hadj, adjWeight_connFold_other post _ _ _
        (fun c' hc' hact' => hpost c' hc' hact')]
      exact hself.1
    · unfold edgeWeight
      rw [hadj, adjWeight_connFold_other post _ _ _
        (fun c' hc' hact' => fun hj =>
          hpost c' hc' hact' ((joins_symm c' _ _).mp hj))]
      exact hself.2
  · intro a b hnone
    unfold edgeWeight
    show adjWeight (conns.foldl connStep (initGraph nodes).adjacencyList) a b =
      none
    rw [adjWeight_connFold_other conns _ a b hnone]
    exact adjWeight_initGraph nodes a b

theorem claim2_amended_adjacency_witness :
    ((specNodes.map NetworkNode.nodeId).Nodup ∧
      (∀ c ∈ specConns, c.fromNodeId ∈ specNodes.map NetworkNode.nodeId ∧
        c.toNodeId ∈ specNodes.map NetworkNode.nodeId) ∧
      List.Pairwise (fun c1 c2 => c1.isActive = true →
        c2.isActive = true → ¬ joins c2 c1.fromNodeId c1.toNodeId) specConns) ∧
    ((∀ c ∈ specConns, c.isActive = true →
      edgeWeight (buildGraph specNodes specConns) c.fromNodeId c.toNodeId =
          some (calculateEdgeWeight c) ∧
        edgeWeight (buildGraph specNodes specConns) c.toNodeId c.fromNodeId =
          some (calculateEdgeWeight c)) ∧
    (∀ a b, (∀ c ∈ specConns, c.isActive = true → ¬ joins c a b) →
      edgeWeight (buildGraph specNodes specConns) a b = none)) :=
  ⟨⟨by decide, by decide, by decide⟩,
    claim2_amended_adjacency specNodes specConns (by decide) (by decide)
      (by decide)⟩

theorem avoidReach_not_mem {g : NetworkGraph} {V : List String} {a b : String}
    (h : AvoidReach g V a b) : b ∉ V := by
  cases h with
  | refl h => exact h
  | step _ _ h => exact h

theorem avoidReach_start_not_mem {g : NetworkGraph} {V : List String}
    {a b : String} (h : AvoidReach g V a b) : a ∉ V := by
  induction h with
  | refl h => exact h
  | step _ _ _ ih => exact ih

theorem reachable_avoidReach_nil (g : NetworkGraph) (s x : String)
    (h : Reachable g s x) : AvoidReach g [] s x := by
  induction h with
  | refl => exact AvoidReach.refl (List.not_mem_nil s)
  | step _ hy ih => exact AvoidReach.step ih hy (List.not_mem_nil _)

theorem avoidReach_reachable {g : NetworkGraph} {V : List String} {a b : String}
    (h : AvoidReach g V a b) : Reachable g a b := by
  induction h with
  | refl _ => exact Reachable.refl
  | step _ hc _ ih => exact Reachable.step ih hc

theorem reachable_trans {g : NetworkGraph} {s x y : String}
    (h1 : Reachable g s x) (h2 : Reachable g x y) : Reachable g s y := by
  induction h2 with
  | refl => exact h1
  | step _ hy ih => exact Reachable.step ih hy

theorem avoidReach_push (g : NetworkGraph) (V rest : List String)
    (current : String) (hc : current ∉ V) (q x : String)
    (hq : q ∈ current :: rest) (h : AvoidReach g V q x) :
    x ∈ current :: V ∨
      ∃ q', q' ∈ rest ++ (getConnectedNodes g current).filter
          (fun n => decide (¬ n ∈ current :: V)) ∧
        AvoidReach g (current :: V) q' x := by
  induction h with
  | refl ha =>
    by_cases hqc : q = current
    · exact Or.inl (by rw [hqc]; exact List.mem_cons_self _ _)
    · right
      refine ⟨q, ?_, AvoidReach.refl (by
        rw [List.mem_cons]
        rintro (h | h)
        · exact hqc h
        · exact ha h)⟩
      rcases List.mem_cons.mp hq with h | h
      · exact absurd h hqc
      · exact List.mem_append.mpr (Or.inl h)
  | step hab hcb hcV ih =>
    rename_i b c
    by_cases hcc : c = current
    · exact Or.inl (by rw [hcc]; exact List.mem_cons_self _ _)
    · have hcV' : c ∉ current :: V := by
        rw [List.mem_cons]
        rintro (h | h)
        · exact hcc h
        · exact hcV h
      rcases ih with hb | ⟨q', hq', har⟩
      · rcases List.mem_cons.mp hb with hbc | hbV
        · right
          refine ⟨c, ?_, AvoidReach.refl hcV'⟩
          refine List.mem_append.mpr (Or.inr ?_)
          rw [List.mem_filter]
          refine ⟨by rw [← hbc]; exact hcb, ?_⟩
          rw [decide_eq_true_iff]
          exact hcV'
        · exact absurd hbV (avoidReach_not_mem hab)
      · exact Or.inr ⟨q', hq', AvoidReach.step har hcb hcV'⟩

theorem bfs_covers (g : NetworkGraph) (V Q O : List String) :
    (∀ y ∈ V, y ∈ O) →
    ∀ x, (x ∈ V ∨ ∃ q ∈ Q, AvoidReach g V q x) → x ∈ bfsAux g V Q O := by
  induction V, Q, O using bfsAux.induct g with
  | case1 visited order =>
    intro hVO x hx
    rw [bfsAux_nil]
    rcases hx with h | ⟨q, hq, -⟩
    · exact hVO x h
    · simp at hq
  | case2 visited current rest order hcur ih =>
    intro hVO x hx
    rw [bfsAux_visited _ _ _ _ _ hcur]
    refine ih hVO x ?_
    rcases hx with h | ⟨q, hq, har⟩
    · exact Or.inl h
    · rcases List.mem_cons.mp hq with hqc | hqr
      · exact absurd hcur (by rw [← hqc]; exact avoidReach_start_not_mem har)
      · exact Or.inr ⟨q, hqr, har⟩
  | case3 visited current rest order hcur ih =>
    intro hVO x hx
    rw [bfsAux_visit _ _ _ _ _ hcur]
    refine ih (fun y hy => ?_) x ?_
    · rcases List.mem_cons.mp hy with h | h
      · rw [h]
        exact List.mem_append.mpr (Or.inr (List.mem_cons_self _ _))
      · exact List.mem_append.mpr (Or.inl (hVO y h))
    · rcases hx with h | ⟨q, hq, har⟩
      · exact Or.inl (List.mem_cons_of_mem _ h)
      · rcases avoidReach_push g visited rest current hcur q x hq har with
          h | ⟨q', hq', har'⟩
        · exact Or.inl h
        · exact Or.inr ⟨q', hq', har'⟩

theorem mem_broadcastPath_of_reachable {g : NetworkGraph} {s x : String}
    (h : Reachable g s x) : x ∈ broadcastPath g s := by
  unfold broadcastPath
  refine bfs_covers g [] [s] [] (by simp) x
    (Or.inr ⟨s, List.mem_cons_self _ _, reachable_avoidReach_nil g s x h⟩)

theorem bfs_sound (g : NetworkGraph) (s : String) (V Q O : List String) :
    (∀ q ∈ Q, Reachable g s q) → (∀ y ∈ O, Reachable g s y) →
    ∀ x ∈ bfsAux g V Q O, Reachable g s x := by
  induction V, Q, O using bfsAux.induct g with
  | case1 visited order =>
    intro _ hO x hx
    rw [bfsAux_nil] at hx
    exact hO x hx
  | case2 visited current rest order hcur ih =>
    intro hQ hO x hx
    rw [bfsAux_visited _ _ _ _ _ hcur] at hx
    exact ih (fun q hq => hQ q (List.mem_cons_of_mem _ hq)) hO x hx
  | case3 visited current rest order hcur ih =>
    intro hQ hO x hx
    rw [bfsAux_visit _ _ _ _ _ hcur] at hx
    refine ih ?_ ?_ x hx
    · intro q hq
      rcases List.mem_append.mp hq with h | h
      · exact hQ q (List.mem_cons_of_mem _ h)
      · exact Reachable.step (hQ current (List.mem_cons_self _ _))
          (List.mem_filter.mp h).1
    · intro y hy
      rcases List.mem_append.mp hy with h | h
      · exact hO y h
      · rw [List.mem_singleton] at h
        rw [h]
        exact hQ current (List.mem_cons_self _ _)

theorem bfs_nodup (g : NetworkGraph) (V Q O : List String) :
    O.Nodup → (∀ y ∈ O, y ∈ V) → (bfsAux g V Q O).Nodup := by
  induction V, Q, O using bfsAux.induct g with
  | case1 visited order =>
    intro hO _
    rw [bfsAux_nil]
    exact hO
  | case2 visited current rest order hcur ih =>
    intro hO hOV
    rw [bfsAux_visited _ _ _ _ _ hcur]
    exact ih hO hOV
  | case3 visited current rest order hcur ih =>
    intro hO hOV
    rw [bfsAux_visit _ _ _ _ _ hcur]
    refine ih ?_ ?_
    · rw [List.nodup_append]
      refine ⟨hO, List.nodup_singleton _, ?_⟩
      intro y hy hyc
      rw [List.mem_singleton] at hyc
      exact hcur (hyc ▸ hOV y hy)
    · intro y hy
      rcases List.mem_append.mp hy with h | h
      · exact List.mem_cons_of_mem _ (hOV y h)
      · rw [List.mem_singleton] at h
        rw [h]
        exact List.mem_cons_self _ _

theorem layered_snoc (g : NetworkGraph) (O : List String) (c : String)
    (hP : ∀ (i : Nat) (h2 : i < O.length), 0 < i →
      ∃ y ∈ O.take i, O.get ⟨i, h2⟩ ∈ getConnectedNodes g y)
    (hc : ∃ y ∈ O, c ∈ getConnectedNodes g y) :
    ∀ (i : Nat) (h2 : i < (O ++ [c]).length), 0 < i →
      ∃ y ∈ (O ++ [c]).take i,
        (O ++ [c]).get ⟨i, h2⟩ ∈ getConnectedNodes g y := by
  intro i h2 hi
  have hlen : (O ++ [c]).length = O.length + 1 := by
    rw [List.length_append, List.length_singleton]
  by_cases hio : i < O.length
  · have hget : (O ++ [c]).get ⟨i, h2⟩ = O.get ⟨i, hio⟩ := by
      rw [List.get_eq_getElem, List.get_eq_getElem]
      exact List.getElem_append_left hio
    have htake : (O ++ [c]).take i = O.take i :=
      List.take_append_of_le_length (Nat.le_of_lt hio)
    rw [hget, htake]
    exact hP i hio hi
  · have hie : i = O.length := by
      rw [hlen] at h2
      omega
    have hget : (O ++ [c]).get ⟨i, h2⟩ = c := by
      rw [List.get_eq_getElem]
      subst hie
      exact List.getElem_concat_length _ _ _ rfl h2
    have htake : (O ++ [c]).take i = O := by
      rw [hie]
      exact List.take_left O [c]
    rw [hget, htake]
    exact hc

theorem bfs_layer (g : NetworkGraph) (V Q O : List String) :
    (∀ q ∈ Q, ∃ y ∈ O, q ∈ getConnectedNodes g y) →
    (∀ (i : Nat) (h2 : i < O.length), 0 < i →
      ∃ y ∈ O.take i, O.get ⟨i, h2⟩ ∈ getConnectedNodes g y) →
    ∀ (i : Nat) (h2 : i < (bfsAux g V Q O).length), 0 < i →
      ∃ y ∈ (bfsAux g V Q O).take i,
        (bfsAux g V Q O).get ⟨i, h2⟩ ∈ getConnectedNodes g y := by
  induction V, Q, O using bfsAux.induct g with
  | case1 visited order =>
    intro _ hP
    rw [bfsAux_nil]
    exact hP
  | case2 visited current rest order hcur ih =>
    intro hQ hP
    rw [bfsAux_visited _ _ _ _ _ hcur]
    exact ih (fun q hq => hQ q (List.mem_cons_of_mem _ hq)) hP
  | case3 visited current rest order hcur ih =>
    intro hQ hP
    rw [bfsAux_visit _ _ _ _ _ hcur]
    refine ih ?_ ?_
    · intro q hq
      rcases List.mem_append.mp hq with h | h
      · rcases hQ q (List.mem_cons_of_mem _ h) with ⟨y, hy, hmem⟩
        exact ⟨y, List.mem_append.mpr (Or.inl hy), hmem⟩
      · exact ⟨current, List.mem_append.mpr (Or.inr (List.mem_cons_self _ _)),
          (List.mem_filter.mp h).1⟩
    · exact layered_snoc g order current hP
        (hQ current (List.mem_cons_self _ _))

theorem vertexList_buildGraph (nodes : List NetworkNode)
    (conns : List NetworkConnection) (k : String) :
    k ∈ vertexList (buildGraph nodes conns) ↔
      k ∈ nodes.map NetworkNode.nodeId := by
  rw [← mapMem_iff_vertexList]
  rw [buildGraph_nodes]
  exact mapMem_initGraph nodes k

theorem buildGraph_adjKeys (nodes : List NetworkNode)
    (conns : List NetworkConnection) (k : String) :
    k ∈ (buildGraph nodes conns).adjacencyList.map Prod.fst ↔
      k ∈ nodes.map NetworkNode.nodeId := by
  show k ∈ (conns.foldl connStep (initGraph nodes).adjacencyList).map Prod.fst ↔ _
  rw [keys_connFold]
  exact initGraph_adjKeys nodes k

/-- C9: a broadcast started at an id that is not a vertex (and that no
connection references) returns just that id, rather than failing or
returning an empty sequence. -/
theorem claim9_unknown_source (nodes : List NetworkNode)
    (conns : List NetworkConnection) (S : String)
    (hS : S ∉ vertexList (buildGraph nodes conns))
    (hS2 : ∀ c ∈ conns, c.fromNodeId ≠ S ∧ c.toNodeId ≠ S) :
    broadcastPath (buildGraph nodes conns) S = [S] := by
  unfold broadcastPath
  rw [bfsAux_visit _ _ _ _ _ (List.not_mem_nil S)]
  have hnb : getConnectedNodes (buildGraph nodes conns) S = [] := by
    unfold getConnectedNodes adjNeighbors
    have hnone : mapGet (buildGraph nodes conns).adjacencyList S = none := by
      rw [mapGet_eq_none_iff]
      intro hmem
      exact hS ((vertexList_buildGraph nodes conns S).mpr
        ((buildGraph_adjKeys nodes conns S).mp hmem))
    rw [hnone]
  rw [hnb]
  show bfsAux _ [S] ([] ++ []) ([] ++ [S]) = [S]
  rw [List.nil_append, List.nil_append, bfsAux_nil]

theorem claim9_unknown_source_witness :
    broadcastPath (buildGraph specNodes specConns) "Z" = ["Z"] :=
  claim9_unknown_source specNodes specConns "Z" (by decide) (by decide)

theorem mem_adjNeighbors_iff (adj : List (String × List (String × ℚ)))
    (k x : String) :
    x ∈ adjNeighbors adj k ↔ (adjWeight adj k x).isSome = true := by
  unfold adjNeighbors adjWeight
  cases mapGet adj k with
  | none => simp
  | some nbrs =>
    simp only [Option.some_bind]
    exact (mapGet_isSome_iff nbrs x).symm

theorem adjSetEdge_not_mem (adj : List (String × List (String × ℚ)))
    (a b : String) (w : ℚ) (h : a ∉ adj.map Prod.fst) :
    adjSetEdge adj a b w = adj := by
  unfold adjSetEdge
  rw [(mapGet_eq_none_iff adj a).mpr h]

theorem adjWeight_adjSetEdge_isSome_mono
    (adj : List (String × List (String × ℚ))) (x y a b : String) (w : ℚ)
    (h : (adjWeight adj a b).isSome = true) :
    (adjWeight (adjSetEdge adj x y w) a b).isSome = true := by
  unfold adjWeight at h ⊢
  rw [mapGet_adjSetEdge]
  by_cases hx : x = a
  · rw [if_pos hx, hx]
    cases hga : mapGet adj a with
    | none =>
      rw [hga] at h
      simp at h
    | some nbrs =>
      rw [hga] at h
      simp only [Option.some_bind] at h
      rw [Option.map_some']
      simp only [Option.some_bind]
      rw [mapGet_mapSet]
      by_cases hyb : y = b
      · rw [if_pos hyb]
        rfl
      · rw [if_neg hyb]
        exact h
  · rw [if_neg hx]
    exact h

theorem adjWeight_connStep_isSome_mono
    (adj : List (String × List (String × ℚ))) (c : NetworkConnection)
    (a b : String) (h : (adjWeight adj a b).isSome = true) :
    (adjWeight (connStep adj c) a b).isSome = true := by
  unfold connStep
  by_cases hact : c.isActive
  · rw [if_pos hact]
    exact adjWeight_adjSetEdge_isSome_mono _ _ _ _ _ _
      (adjWeight_adjSetEdge_isSome_mono _ _ _ _ _ _ h)
  · rw [if_neg hact]
    exact h

theorem adjWeight_connFold_isSome_mono (conns : List NetworkConnection)
    (adj : List (String × List (String × ℚ))) (a b : String)
    (h : (adjWeight adj a b).isSome = true) :
    (adjWeight (conns.foldl connStep adj) a b).isSome = true := by
  induction conns generalizing adj with
  | nil => exact h
  | cons c rest ih =>
    rw [List.foldl_cons]
    exact ih _ (adjWeight_connStep_isSome_mono adj c a b h)

/-- C10: an active connection whose `fromNodeId` is not a node id but
whose `toNodeId` is gets a one-sided neighbor entry: `fromNodeId` shows
up among `getConnectedNodes(toNodeId)`, and any broadcast started at a
vertex from which `toNodeId` is reachable includes the non-vertex id
`fromNodeId` in its output. -/
theorem claim10_dangling_edge (nodes : List NetworkNode)
    (conns : List NetworkConnection) (c : NetworkConnection) (hc : c ∈ conns)
    (hact : c.isActive = true)
    (hfrom : c.fromNodeId ∉ nodes.map NetworkNode.nodeId)
    (hto : c.toNodeId ∈ nodes.map NetworkNode.nodeId) :
    c.fromNodeId ∈ getConnectedNodes (buildGraph nodes conns) c.toNodeId ∧
    ∀ s, s ∈ vertexList (buildGraph nodes conns) →
      Reachable (buildGraph nodes conns) s c.toNodeId →
      c.fromNodeId ∈ broadcastPath (buildGraph nodes conns) s := by
  have hmain : c.fromNodeId ∈ getConnectedNodes (buildGraph nodes conns)
      c.toNodeId := by
    rcases List.append_of_mem hc with ⟨pre, post, rfl⟩
    have hadj : (buildGraph nodes (pre ++ c :: post)).adjacencyList =
        post.foldl connStep (connStep (pre.foldl connStep
          (initGraph nodes).adjacencyList) c) := by
      show (pre ++ c :: post).foldl connStep (initGraph nodes).adjacencyList = _
      rw [List.foldl_append, List.foldl_cons]
    unfold getConnectedNodes
    rw [hadj, mem_adjNeighbors_iff]
    have hkeys : ∀ k, k ∈ (pre.foldl connStep
        (initGraph nodes).adjacencyList).map Prod.fst ↔
        k ∈ nodes.map NetworkNode.nodeId := by
      intro k
      rw [keys_connFold]
      exact initGraph_adjKeys nodes k
    have hstep : ∀ adj : List (String × List (String × ℚ)),
        (∀ k, k ∈ adj.map Prod.fst ↔ k ∈ nodes.map NetworkNode.nodeId) →
        connStep adj c =
          adjSetEdge adj c.toNodeId c.fromNodeId (calculateEdgeWeight c) := by
      intro adj hk
      unfold connStep
      rw [if_pos hact, adjSetEdge_not_mem _ _ _ _
        (fun hmem => hfrom ((hk _).mp hmem))]
    refine adjWeight_connFold_isSome_mono post _ _ _ ?_
    rw [hstep _ hkeys, adjWeight_adjSetEdge_self _ _ _ _ ((hkeys _).mpr hto)]
    rfl
  refine ⟨hmain, ?_⟩
  intro s _ hreach
  exact mem_broadcastPath_of_reachable (Reachable.step hreach hmain)

theorem claim10_dangling_edge_witness :
    "GHOST" ∈ getConnectedNodes gDangling "B" ∧
      "GHOST" ∈ broadcastPath gDangling "A" :=
  ⟨(claim10_dangling_edge dupNodes danglingConns ⟨2, "GHOST", "B", 1, 0, true⟩
      (by simp [danglingConns]) rfl (by decide) (by decide)).1,
    (claim10_dangling_edge dupNodes danglingConns ⟨2, "GHOST", "B", 1, 0, true⟩
      (by simp [danglingConns]) rfl (by decide) (by decide)).2 "A" (by decide)
      (Reachable.step Reachable.refl (by decide))⟩

theorem reachN_reachable {g : NetworkGraph} {s x : String} {n : Nat}
    (h : ReachN g s x n) : Reachable g s x := by
  induction h with
  | refl => exact Reachable.refl
  | step _ hy ih => exact Reachable.step ih hy

theorem reachable_reachN {g : NetworkGraph} {s x : String}
    (h : Reachable g s x) : ∃ n, ReachN g s x n := by
  induction h with
  | refl => exact ⟨0, ReachN.refl⟩
  | step _ hy ih =>
    rcases ih with ⟨n, hn⟩
    exact ⟨n + 1, ReachN.step hn hy⟩

theorem hopDist_reachN {g : NetworkGraph} {s x : String}
    (hx : Reachable g s x) :
    ReachN g s x (sInf {n | ReachN g s x n}) := by
  have hne : {n | ReachN g s x n}.Nonempty := by
    rcases reachable_reachN hx with ⟨n, hn⟩
    exact ⟨n, hn⟩
  exact Nat.sInf_mem hne

theorem hopDist_le {g : NetworkGraph} {s x : String} {n : Nat}
    (hn : ReachN g s x n) : sInf {m | ReachN g s x m} ≤ n :=
  Nat.sInf_le hn

theorem hopDist_start (g : NetworkGraph) (s : String) :
    sInf {n | ReachN g s s n} = 0 :=
  Nat.le_antisymm (hopDist_le ReachN.refl) (Nat.zero_le _)

theorem hopDist_step_le {g : NetworkGraph} {s z y : String} {k : Nat}
    (hz : ReachN g s z k) (hy : y ∈ getConnectedNodes g z) :
    sInf {n | ReachN g s y n} ≤ k + 1 :=
  hopDist_le (ReachN.step hz hy)

theorem reachN_zero {g : NetworkGraph} {s x : String}
    (h : ReachN g s x 0) : x = s := by
  cases h
  rfl

theorem hopDist_exists_pred {g : NetworkGraph} {s x : String} {k : Nat}
    (hx : Reachable g s x) (hk : sInf {n | ReachN g s x n} = k + 1) :
    ∃ z, Reachable g s z ∧ sInf {n | ReachN g s z n} = k ∧
      x ∈ getConnectedNodes g z := by
  have hreach := hopDist_reachN hx
  rw [hk] at hreach
  cases hreach with
  | step hz hnb =>
    rename_i z
    refine ⟨z, reachN_reachable hz, ?_, hnb⟩
    have hle : sInf {n | ReachN g s z n} ≤ k := hopDist_le hz
    rcases Nat.lt_or_ge (sInf {n | ReachN g s z n}) k with hlt | hge
    · exfalso
      have hz' := hopDist_reachN (reachN_reachable hz)
      have : sInf {n | ReachN g s x n} ≤
          sInf {n | ReachN g s z n} + 1 :=
        hopDist_le (ReachN.step hz' hnb)
      omega
    · omega

theorem mem_bfs_pushed {g : NetworkGraph} {visited : List String}
    {current p : String}
    (hp : p ∈ (getConnectedNodes g current).filter
      (fun n => decide (¬ n ∈ current :: visited))) :
    p ∈ getConnectedNodes g current ∧ p ≠ current ∧ p ∉ visited := by
  rcases List.mem_filter.mp hp with ⟨h1, h2⟩
  rw [decide_eq_true_iff, List.mem_cons] at h2
  push_neg at h2
  exact ⟨h1, h2.1, h2.2⟩

theorem bfs_sorted_levels (g : NetworkGraph) (s : String) (V Q O : List String) :
    ∀ (k : Nat) (Q1 Q2 : List String),
    Q = Q1 ++ Q2 →
    (∀ y ∈ O, Reachable g s y ∧ sInf {n | ReachN g s y n} ≤ k) →
    List.Pairwise (fun a b =>
      sInf {n | ReachN g s a n} ≤ sInf {n | ReachN g s b n}) O →
    (∀ v ∈ V, Reachable g s v ∧ sInf {n | ReachN g s v n} ≤ k) →
    (∀ x, Reachable g s x → sInf {n | ReachN g s x n} < k → x ∈ V) →
    (∀ q ∈ Q1, Reachable g s q ∧
      (q ∈ V ∨ sInf {n | ReachN g s q n} = k)) →
    (∀ q ∈ Q2, Reachable g s q ∧
      (q ∈ V ∨ sInf {n | ReachN g s q n} = k + 1 ∨
        (sInf {n | ReachN g s q n} = k ∧ q ∈ Q1))) →
    (∀ x, Reachable g s x → sInf {n | ReachN g s x n} = k → x ∉ V →
      x ∈ Q1) →
    (∀ x, Reachable g s x → sInf {n | ReachN g s x n} = k + 1 → x ∉ V →
      (x ∈ Q2 ∨ ∃ z, Reachable g s z ∧ sInf {n | ReachN g s z n} = k ∧
        x ∈ getConnectedNodes g z ∧ z ∉ V)) →
    List.Pairwise (fun a b =>
      sInf {n | ReachN g s a n} ≤ sInf {n | ReachN g s b n})
      (bfsAux g V Q O) := by
  induction V, Q, O using bfsAux.induct g with
  | case1 visited order =>
    intro k Q1 Q2 hsplit ha hb hg hc he1 he2 he3 hf
    rw [bfsAux_nil]
    exact hb
  | case2 visited current rest order hcur ih =>
    intro k Q1 Q2 hsplit ha hb hg hc he1 he2 he3 hf
    rw [bfsAux_visited _ _ _ _ _ hcur]
    cases Q1 with
    | cons c1 Q1t =>
      rw [List.cons_append] at hsplit
      injection hsplit with hch hrest
      subst hch
      refine ih k Q1t Q2 hrest ha hb hg hc
        (fun q hq => he1 q (List.mem_cons_of_mem _ hq)) ?_ ?_ hf
      · intro q hq
        rcases he2 q hq with ⟨hr, hv | hd | ⟨hd, hq1⟩⟩
        · exact ⟨hr, Or.inl hv⟩
        · exact ⟨hr, Or.inr (Or.inl hd)⟩
        · rcases List.mem_cons.mp hq1 with hqc | hqt
          · exact ⟨hr, Or.inl (hqc ▸ hcur)⟩
          · exact ⟨hr, Or.inr (Or.inr ⟨hd, hqt⟩)⟩
      · intro x hx hd hxv
        rcases List.mem_cons.mp (he3 x hx hd hxv) with hxc | hxt
        · exact absurd (hxc ▸ hcur) hxv
        · exact hxt
    | nil =>
      rw [List.nil_append] at hsplit
      refine ih k [] rest ?_ ha hb hg hc (by simp) ?_ he3 ?_
      · rw [List.nil_append]
      · intro q hq
        rcases he2 q (by rw [← hsplit]; exact List.mem_cons_of_mem _ hq) with
          ⟨hr, hv | hd | ⟨hd, hq1⟩⟩
        · exact ⟨hr, Or.inl hv⟩
        · exact ⟨hr, Or.inr (Or.inl hd)⟩
        · simp at hq1
      · intro x hx hd hxv
        rcases hf x hx hd hxv with hxq | hw
        · rw [← hsplit, List.mem_cons] at hxq
          rcases hxq with hxc | hxr
          · exact absurd (hxc ▸ hcur) hxv
          · exact Or.inl hxr
        · exact Or.inr hw
  | case3 visited current rest order hcur ih =>
    intro k Q1 Q2 hsplit ha hb hg hc he1 he2 he3 hf
    rw [bfsAux_visit _ _ _ _ _ hcur]
    cases Q1 with
    | cons c1 Q1t =>
      rw [List.cons_append] at hsplit
      injection hsplit with hch hrest
      subst hch
      have hcR : Reachable g s current := (he1 current (List.mem_cons_self _ _)).1
      have dcur : sInf {n | ReachN g s current n} = k := by
        rcases (he1 current (List.mem_cons_self _ _)).2 with hv | hd
        · exact absurd hv hcur
        · exact hd
      have hpush : ∀ p ∈ (getConnectedNodes g current).filter
          (fun n => decide (¬ n ∈ current :: visited)),
          Reachable g s p ∧ p ≠ current ∧ p ∉ visited ∧
            (sInf {n | ReachN g s p n} = k ∨
              sInf {n | ReachN g s p n} = k + 1) := by
        intro p hp
        rcases mem_bfs_pushed hp with ⟨h1, h2, h3⟩
        have hpR : Reachable g s p := Reachable.step hcR h1
        have hub : sInf {n | ReachN g s p n} ≤ k + 1 := by
          refine hopDist_step_le ?_ h1
          have := hopDist_reachN hcR
          rw [dcur] at this
          exact this
        have hlb : ¬ sInf {n | ReachN g s p n} < k := fun hlt =>
          h3 (hc p hpR hlt)
        exact ⟨hpR, h2, h3, by omega⟩
      subst hrest
      refine ih k Q1t (Q2 ++ (getConnectedNodes g current).filter
          (fun n => decide (¬ n ∈ current :: visited))) ?_ ?_ ?_ ?_ ?_ ?_ ?_ ?_ ?_
      · rw [List.append_assoc]
      · intro y hy
        rcases List.mem_append.mp hy with h | h
        · exact ha y h
        · rw [List.mem_singleton] at h
          subst h
          exact ⟨hcR, by rw [dcur]⟩
      · rw [List.pairwise_append]
        refine ⟨hb, List.pairwise_singleton _ _, ?_⟩
        intro y hy c hc'
        rw [List.mem_singleton] at hc'
        subst hc'
        rw [dcur]
        exact (ha y hy).2
      · intro v hv
        rcases List.mem_cons.mp hv with h | h
        · subst h
          exact ⟨hcR, by rw [dcur]⟩
        · exact hg v h
      · intro x hx hd
        exact List.mem_cons_of_mem _ (hc x hx hd)
      · intro q hq
        rcases he1 q (List.mem_cons_of_mem _ hq) with ⟨hr, hv | hd⟩
        · exact ⟨hr, Or.inl (List.mem_cons_of_mem _ hv)⟩
        · exact ⟨hr, Or.inr hd⟩
      · intro q hq
        rcases List.mem_append.mp hq with hq2 | hqp
        · rcases he2 q hq2 with ⟨hr, hv | hd | ⟨hd, hq1⟩⟩
          · exact ⟨hr, Or.inl (List.mem_cons_of_mem _ hv)⟩
          · exact ⟨hr, Or.inr (Or.inl hd)⟩
          · rcases List.mem_cons.mp hq1 with hqc | hqt
            · exact ⟨hr, Or.inl (by rw [hqc]; exact List.mem_cons_self _ _)⟩
            · exact ⟨hr, Or.inr (Or.inr ⟨hd, hqt⟩)⟩
        · rcases hpush q hqp with ⟨hr, hne, hnv, hd | hd⟩
          · have hq1 := he3 q hr hd hnv
            rcases List.mem_cons.mp hq1 with hqc | hqt
            · exact absurd hqc hne
            · exact ⟨hr, Or.inr (Or.inr ⟨hd, hqt⟩)⟩
          · exact ⟨hr, Or.inr (Or.inl hd)⟩
      · intro x hx hd hxv
        rw [List.mem_cons] at hxv
        push_neg at hxv
        rcases List.mem_cons.mp (he3 x hx hd hxv.2) with hxc | hxt
        · exact absurd hxc hxv.1
        · exact hxt
      · intro x hx hd hxv
        rw [List.mem_cons] at hxv
        push_neg at hxv
        rcases hf x hx hd hxv.2 with hxq | ⟨z, hzR, hzd, hznb, hzv⟩
        · exact Or.inl (List.mem_append.mpr (Or.inl hxq))
        · by_cases hzc : z = current
          · refine Or.inl (List.mem_append.mpr (Or.inr ?_))
            rw [List.mem_filter]
            refine ⟨by rw [← hzc]; exact hznb, ?_⟩
            rw [decide_eq_true_iff, List.mem_cons]
            push_neg
            exact ⟨hxv.1, hxv.2⟩
          · refine Or.inr ⟨z, hzR, hzd, hznb, ?_⟩
            rw [List.mem_cons]
            push_neg
            exact ⟨hzc, hzv⟩
    | nil =>
      rw [List.nil_append] at hsplit
      have hcmem : current ∈ Q2 := by
        rw [← hsplit]
        exact List.mem_cons_self _ _
      have hcR : Reachable g s current := (he2 current hcmem).1
      have dcur : sInf {n | ReachN g s current n} = k + 1 := by
        rcases (he2 current hcmem).2 with hv | hd | ⟨-, hq1⟩
        · exact absurd hv hcur
        · exact hd
        · simp at hq1
      have hlayk : ∀ x, Reachable g s x → sInf {n | ReachN g s x n} = k →
          x ∈ visited := by
        intro x hx hd
        by_contra hxv
        exact absurd (he3 x hx hd hxv) (List.not_mem_nil x)
      have hpush : ∀ p ∈ (getConnectedNodes g current).filter
          (fun n => decide (¬ n ∈ current :: visited)),
          Reachable g s p ∧ p ≠ current ∧ p ∉ visited ∧
            (sInf {n | ReachN g s p n} = k + 1 ∨
              sInf {n | ReachN g s p n} = k + 2) := by
        intro p hp
        rcases mem_bfs_pushed hp with ⟨h1, h2, h3⟩
        have hpR : Reachable g s p := Reachable.step hcR h1
        have hub : sInf {n | ReachN g s p n} ≤ k + 2 := by
          refine hopDist_step_le ?_ h1
          have := hopDist_reachN hcR
          rw [dcur] at this
          exact this
        have hlb : ¬ sInf {n | ReachN g s p n} < k + 1 := by
          intro hlt
          rcases Nat.lt_or_ge (sInf {n | ReachN g s p n}) k with h | h
          · exact h3 (hc p hpR h)
          · have : sInf {n | ReachN g s p n} = k := by omega
            exact h3 (hlayk p hpR this)
        exact ⟨hpR, h2, h3, by omega⟩
      refine ih (k + 1) rest ((getConnectedNodes g current).filter
          (fun n => decide (¬ n ∈ current :: visited))) rfl ?_ ?_ ?_ ?_ ?_ ?_ ?_ ?_
      · intro y hy
        rcases List.mem_append.mp hy with h | h
        · rcases ha y h with ⟨hr, hd⟩
          exact ⟨hr, by omega⟩
        · rw [List.mem_singleton] at h
          subst h
          exact ⟨hcR, by rw [dcur]⟩
      · rw [List.pairwise_append]
        refine ⟨hb, List.pairwise_singleton _ _, ?_⟩
        intro y hy c hc'
        rw [List.mem_singleton] at hc'
        subst hc'
        rw [dcur]
        have := (ha y hy).2
        omega
      · intro v hv
        rcases List.mem_cons.mp hv with h | h
        · subst h
          exact ⟨hcR, by rw [dcur]⟩
        · rcases hg v h with ⟨hr, hd⟩
          exact ⟨hr, by omega⟩
      · intro x hx hd
        rcases Nat.lt_or_ge (sInf {n | ReachN g s x n}) k with h | h
        · exact List.mem_cons_of_mem _ (hc x hx h)
        · have : sInf {n | ReachN g s x n} = k := by omega
          exact List.mem_cons_of_mem _ (hlayk x hx this)
      · intro q hq
        have hq2 : q ∈ Q2 := by
          rw [← hsplit]
          exact List.mem_cons_of_mem _ hq
        rcases he2 q hq2 with ⟨hr, hv | hd | ⟨-, hq1⟩⟩
        · exact ⟨hr, Or.inl (List.mem_cons_of_mem _ hv)⟩
        · exact ⟨hr, Or.inr hd⟩
        · simp at hq1
      · intro q hq
        rcases hpush q hq with ⟨hr, hne, hnv, hd | hd⟩
        · have : q ∈ Q2 := by
            rcases hf q hr hd hnv with h | ⟨z, hzR, hzd, -, hzv⟩
            · exact h
            · exact absurd (hlayk z hzR hzd) hzv
          rw [← hsplit, List.mem_cons] at this
          rcases this with h | h
          · exact absurd h hne
          · exact ⟨hr, Or.inr (Or.inr ⟨hd, h⟩)⟩
        · exact ⟨hr, Or.inr (Or.inl hd)⟩
      · intro x hx hd hxv
        rw [List.mem_cons] at hxv
        push_neg at hxv
        have : x ∈ Q2 := by
          rcases hf x hx hd hxv.2 with h | ⟨z, hzR, hzd, -, hzv⟩
          · exact h
          · exact absurd (hlayk z hzR hzd) hzv
        rw [← hsplit, List.mem_cons] at this
        rcases this with h | h
        · exact absurd h hxv.1
        · exact h
      · intro x hx hd hxv
        rw [List.mem_cons] at hxv
        push_neg at hxv
        rcases hopDist_exists_pred hx hd with ⟨z, hzR, hzd, hznb⟩
        by_cases hzc : z = current
        · refine Or.inl ?_
          rw [List.mem_filter]
          refine ⟨by rw [← hzc]; exact hznb, ?_⟩
          rw [decide_eq_true_iff, List.mem_cons]
          push_neg
          exact ⟨hxv.1, hxv.2⟩
        · refine Or.inr ⟨z, hzR, hzd, hznb, ?_⟩
          rw [List.mem_cons]
          push_neg
          refine ⟨hzc, ?_⟩
          intro hzV
          have := (hg z hzV).2
          omega

theorem broadcastPath_hopDist_sorted (g : NetworkGraph) (s : String) :
    List.Pairwise (fun a b =>
      sInf {n | ReachN g s a n} ≤ sInf {n | ReachN g s b n})
      (broadcastPath g s) := by
  unfold broadcastPath
  refine bfs_sorted_levels g s [] [s] [] 0 [s] [] rfl (by simp)
    List.Pairwise.nil (by simp) ?_ ?_ (by simp) ?_ ?_
  · intro x hx hd
    exact absurd hd (Nat.not_lt_zero _)
  · intro q hq
    rw [List.mem_singleton] at hq
    rw [hq]
    exact ⟨Reachable.refl, Or.inr (hopDist_start g s)⟩
  · intro x hx hd hxv
    have hr := hopDist_reachN hx
    rw [hd] at hr
    rw [reachN_zero hr]
    exact List.mem_singleton.mpr rfl
  · intro x hx hd hxv
    rcases hopDist_exists_pred hx hd with ⟨z, hzR, hzd, hznb⟩
    exact Or.inr ⟨z, hzR, hzd, hznb, List.not_mem_nil z⟩

theorem broadcastPath_hopDist_mono (g : NetworkGraph) (s : String)
    (i j : Nat) (hi : i < (broadcastPath g s).length)
    (hj : j < (broadcastPath g s).length) (hij : i ≤ j) (n : Nat)
    (hn : ReachN g s ((broadcastPath g s).get ⟨j, hj⟩) n) :
    ∃ m, m ≤ n ∧ ReachN g s ((broadcastPath g s).get ⟨i, hi⟩) m := by
  have hiR : Reachable g s ((broadcastPath g s).get ⟨i, hi⟩) :=
    bfs_sound g s [] [s] []
      (fun q hq => by
        rw [List.mem_singleton] at hq
        rw [hq]
        exact Reachable.refl)
      (by simp) _ (List.get_mem _ _ _)
  have hle : sInf {m | ReachN g s ((broadcastPath g s).get ⟨i, hi⟩) m} ≤
      sInf {m | ReachN g s ((broadcastPath g s).get ⟨j, hj⟩) m} := by
    rcases Nat.lt_or_ge i j with hlt | hge
    · exact List.pairwise_iff_get.mp (broadcastPath_hopDist_sorted g s)
        ⟨i, hi⟩ ⟨j, hj⟩ hlt
    · have : i = j := by omega
      subst this
      exact le_refl _
  refine ⟨sInf {m | ReachN g s ((broadcastPath g s).get ⟨i, hi⟩) m},
    ?_, hopDist_reachN hiR⟩
  exact le_trans hle (hopDist_le hn)

/-- C5: for every topology and every vertex `s`, `broadcastPath(s)`
contains each node reachable from `s` exactly once, contains no
unreachable node, and its order satisfies the BFS layering property:
the hop distance from `s` is non-decreasing along the output sequence
(stated as: any step count realizable at a later position is matched by
one at least as small at any earlier position), and every node after the
first is adjacent to some earlier-visited node. -/
theorem claim5_broadcast_properties (nodes : List NetworkNode)
    (conns : List NetworkConnection) (s : String)
    (hs : s ∈ vertexList (buildGraph nodes conns)) :
    (broadcastPath (buildGraph nodes conns) s).Nodup ∧
    (∀ x, x ∈ broadcastPath (buildGraph nodes conns) s ↔
      Reachable (buildGraph nodes conns) s x) ∧
    (∀ (i j : Nat) (hi : i < (broadcastPath (buildGraph nodes conns) s).length)
      (hj : j < (broadcastPath (buildGraph nodes conns) s).length), i ≤ j →
      ∀ n, ReachN (buildGraph nodes conns) s
          ((broadcastPath (buildGraph nodes conns) s).get ⟨j, hj⟩) n →
        ∃ m, m ≤ n ∧ ReachN (buildGraph nodes conns) s
          ((broadcastPath (buildGraph nodes conns) s).get ⟨i, hi⟩) m) ∧
    (∀ (i : Nat) (h2 : i < (broadcastPath (buildGraph nodes conns) s).length),
      0 < i → ∃ y ∈ (broadcastPath (buildGraph nodes conns) s).take i,
        (broadcastPath (buildGraph nodes conns) s).get ⟨i, h2⟩ ∈
          getConnectedNodes (buildGraph nodes conns) y) := by
  refine ⟨?_, ?_, fun i j hi hj hij n hn =>
    broadcastPath_hopDist_mono (buildGraph nodes conns) s i j hi hj hij n hn, ?_⟩
  · exact bfs_nodup _ [] [s] [] List.nodup_nil (by simp)
  · intro x
    constructor
    · intro hx
      exact bfs_sound _ s [] [s] []
        (fun q hq => by
          rw [List.mem_singleton] at hq
          rw [hq]
          exact Reachable.refl)
        (by simp) x hx
    · exact mem_broadcastPath_of_reachable
  · have hb : broadcastPath (buildGraph nodes conns) s =
        bfsAux (buildGraph nodes conns) (s :: [])
          (([] : List String) ++
            (getConnectedNodes (buildGraph nodes conns) s).filter
              (fun n => decide (¬ n ∈ s :: ([] : List String))))
          ([] ++ [s]) := by
      unfold broadcastPath
      exact bfsAux_visit _ [] [] [] s (List.not_mem_nil s)
    rw [hb]
    refine bfs_layer _ _ _ _ ?_ ?_
    · intro q hq
      rw [List.nil_append, List.mem_filter] at hq
      exact ⟨s, by simp, hq.1⟩
    · intro i h2 hi
      rw [List.nil_append, List.length_singleton] at h2
      omega

theorem claim5_broadcast_properties_witness :
    (broadcastPath (buildGraph specNodes specConns) "A").Nodup ∧
    (∀ x, x ∈ broadcastPath (buildGraph specNodes specConns) "A" ↔
      Reachable (buildGraph specNodes specConns) "A" x) ∧
    (∀ (i j : Nat)
      (hi : i < (broadcastPath (buildGraph specNodes specConns) "A").length)
      (hj : j < (broadcastPath (buildGraph specNodes specConns) "A").length),
      i ≤ j →
      ∀ n, ReachN (buildGraph specNodes specConns) "A"
          ((broadcastPath (buildGraph specNodes specConns) "A").get ⟨j, hj⟩) n →
        ∃ m, m ≤ n ∧ ReachN (buildGraph specNodes specConns) "A"
          ((broadcastPath (buildGraph specNodes specConns) "A").get ⟨i, hi⟩) m) ∧
    (∀ (i : Nat)
      (h2 : i < (broadcastPath (buildGraph specNodes specConns) "A").length),
      0 < i →
      ∃ y ∈ (broadcastPath (buildGraph specNodes specConns) "A").take i,
        (broadcastPath (buildGraph specNodes specConns) "A").get ⟨i, h2⟩ ∈
          getConnectedNodes (buildGraph specNodes specConns) y) :=
  claim5_broadcast_properties specNodes specConns "A" (by decide)
